import Mathlib

/-!
Verification of the Mnemonic-Validator repository (BIP39 mnemonic
generator / validator) against its natural-language specification.

Strings from the Python source are modelled as lists of Unicode code
points (`PyStr := List Nat`); Python exceptions are modelled by `Option`
(`none` = an uncaught exception escapes); the SHA-256 hash is implemented
executably over byte lists, with 32-bit words represented as `Nat` reduced
modulo `2 ^ 32`.
-/

/-- Python strings, modelled as lists of Unicode code points. -/
abbrev PyStr := List Nat

/-- Code points of a Lean string literal, for readable concrete inputs. -/
def str (s : String) : PyStr := s.toList.map Char.toNat

/-- The whitespace code points recognised by Python's `str.strip()` (ASCII part:
tab, LF, VT, FF, CR, space). -/
def isPySpaceB (c : Nat) : Bool := c == 9 || c == 10 || c == 11 || c == 12 || c == 13 || c == 32

/-- Python `str.lower()` on a single ASCII code point. -/
def pyToLower (c : Nat) : Nat := if 65 ≤ c ∧ c ≤ 90 then c + 32 else c

/-- Python `str.lower()`. -/
def pyLower (s : PyStr) : PyStr := s.map pyToLower

/-- Python `str.strip()`: drop leading and trailing whitespace. -/
def pyStrip (s : PyStr) : PyStr :=
  ((s.dropWhile isPySpaceB).reverse.dropWhile isPySpaceB).reverse

/-- Split on every whitespace character, keeping empty segments;
helper for `pySplit`.  Never returns `[]`. -/
def splitWS : PyStr → List PyStr
  | [] => [[]]
  | c :: rest =>
    match splitWS rest with
    | [] => [[c]]
    | w :: ws => if isPySpaceB c then [] :: w :: ws else (c :: w) :: ws

/-- Python `str.split()` with no arguments: split on runs of whitespace,
discarding empty tokens. -/
def pySplit (s : PyStr) : List PyStr := (splitWS s).filter (fun w => !w.isEmpty)

/-- Python `' '.join(words)`. -/
def joinWords : List PyStr → PyStr
  | [] => []
  | [w] => w
  | w :: ws => w ++ 32 :: joinWords ws

/-- Sequence a list of optional values; `none` as soon as one is missing
(a Python loop aborted by an exception). -/
def sequenceOpt {α : Type} : List (Option α) → Option (List α)
  | [] => some []
  | none :: _ => none
  | some a :: os => (sequenceOpt os).map (fun l => a :: l)

/-- Python `list.index(x)`: index of the first occurrence, `none` when absent
(where the Python method raises `ValueError`). -/
def pyIndexOf : List PyStr → PyStr → Option Nat
  | [], _ => none
  | x :: xs, w => if x = w then some 0 else (pyIndexOf xs w).map (· + 1)

/-- Big-endian byte decomposition of `e` into `n` bytes (the value of
Python `e.to_bytes(n, byteorder='big')` when it does not overflow). -/
def toBytesBE (e n : Nat) : List Nat :=
  (List.range n).map (fun j => e / 2 ^ (8 * (n - 1 - j)) % 256)

/-- Python `e.to_bytes(n, byteorder='big')`: `none` models the
`OverflowError` raised when `e` does not fit in `n` bytes. -/
def pyToBytes (e n : Nat) : Option (List Nat) :=
  if e < 2 ^ (8 * n) then some (toBytesBE e n) else none

/-- Big-endian value of a byte string (`int.from_bytes(bytes, 'big')`). -/
def bytesToNat (l : List Nat) : Nat := l.foldl (fun a b => a * 256 + b) 0

/-! ## SHA-256, executable, over byte lists -/

/-- Addition modulo `2 ^ 32`. -/
def add32 (a b : Nat) : Nat := (a + b) % 4294967296

/-- Bitwise complement on 32 bits. -/
def not32 (x : Nat) : Nat := x ^^^ 4294967295

/-- Right rotation of a 32-bit word. -/
def rotr32 (n x : Nat) : Nat := ((x >>> n) ||| (x <<< (32 - n))) % 4294967296

/-- SHA-256 small sigma 0. -/
def ssig0 (x : Nat) : Nat := (rotr32 7 x) ^^^ (rotr32 18 x) ^^^ (x >>> 3)

/-- SHA-256 small sigma 1. -/
def ssig1 (x : Nat) : Nat := (rotr32 17 x) ^^^ (rotr32 19 x) ^^^ (x >>> 10)

/-- SHA-256 big sigma 0. -/
def bsig0 (x : Nat) : Nat := (rotr32 2 x) ^^^ (rotr32 13 x) ^^^ (rotr32 22 x)

/-- SHA-256 big sigma 1. -/
def bsig1 (x : Nat) : Nat := (rotr32 6 x) ^^^ (rotr32 11 x) ^^^ (rotr32 25 x)

/-- SHA-256 choice function. -/
def ch32 (x y z : Nat) : Nat := (x &&& y) ^^^ (not32 x &&& z)

/-- SHA-256 majority function. -/
def maj32 (x y z : Nat) : Nat := (x &&& y) ^^^ (x &&& z) ^^^ (y &&& z)

/-- The 64 SHA-256 round constants. -/
def shaK : List Nat :=
  [1116352408, 1899447441, 3049323471, 3921009573, 961987163,
   1508970993, 2453635748, 2870763221, 3624381080, 310598401,
   607225278, 1426881987, 1925078388, 2162078206, 2614888103,
   3248222580, 3835390401, 4022224774, 264347078, 604807628,
   770255983, 1249150122, 1555081692, 1996064986, 2554220882,
   2821834349, 2952996808, 3210313671, 3336571891, 3584528711,
   113926993, 338241895, 666307205, 773529912, 1294757372,
   1396182291, 1695183700, 1986661051, 2177026350, 2456956037,
   2730485921, 2820302411, 3259730800, 3345764771, 3516065817,
   3600352804, 4094571909, 275423344, 430227734, 506948616,
   659060556, 883997877, 958139571, 1322822218, 1537002063,
   1747873779, 1955562222, 2024104815, 2227730452, 2361852424,
   2428436474, 2756734187, 3204031479, 3329325298]

/-- The eight 32-bit words of a SHA-256 state. -/
structure Hash8 where
  a : Nat
  b : Nat
  c : Nat
  d : Nat
  e : Nat
  f : Nat
  g : Nat
  h : Nat

/-- The SHA-256 initial hash value. -/
def shaH0 : Hash8 :=
  ⟨1779033703, 3144134277, 1013904242, 2773480762,
   1359893119, 2600822924, 528734635, 1541459225⟩

/-- Extend a 16-word message schedule by `fuel` further words. -/
def extendW (ws : List Nat) : Nat → List Nat
  | 0 => ws
  | fuel + 1 =>
    let n := ws.length
    let w := add32 (add32 (ssig1 (ws.getD (n - 2) 0)) (ws.getD (n - 7) 0))
                   (add32 (ssig0 (ws.getD (n - 15) 0)) (ws.getD (n - 16) 0))
    extendW (ws ++ [w]) fuel

/-- One SHA-256 compression round. -/
def shaRound (st : Hash8) (kw : Nat × Nat) : Hash8 :=
  let t1 := add32 st.h (add32 (bsig1 st.e) (add32 (ch32 st.e st.f st.g) (add32 kw.1 kw.2)))
  let t2 := add32 (bsig0 st.a) (maj32 st.a st.b st.c)
  ⟨add32 t1 t2, st.a, st.b, st.c, add32 st.d t1, st.e, st.f, st.g⟩

/-- SHA-256 compression of one 64-byte block. -/
def shaCompress (h : Hash8) (block : List Nat) : Hash8 :=
  let w16 := (List.range 16).map (fun j =>
    block.getD (4 * j) 0 * 16777216 + block.getD (4 * j + 1) 0 * 65536 +
    block.getD (4 * j + 2) 0 * 256 + block.getD (4 * j + 3) 0)
  let w := extendW w16 48
  let f := (shaK.zip w).foldl shaRound h
  ⟨add32 h.a f.a, add32 h.b f.b, add32 h.c f.c, add32 h.d f.d,
   add32 h.e f.e, add32 h.f f.f, add32 h.g f.g, add32 h.h f.h⟩

/-- The 32 digest bytes of a final SHA-256 state, big-endian per word. -/
def digestBytes (h : Hash8) : List Nat :=
  [h.a / 16777216 % 256, h.a / 65536 % 256, h.a / 256 % 256, h.a % 256,
   h.b / 16777216 % 256, h.b / 65536 % 256, h.b / 256 % 256, h.b % 256,
   h.c / 16777216 % 256, h.c / 65536 % 256, h.c / 256 % 256, h.c % 256,
   h.d / 16777216 % 256, h.d / 65536 % 256, h.d / 256 % 256, h.d % 256,
   h.e / 16777216 % 256, h.e / 65536 % 256, h.e / 256 % 256, h.e % 256,
   h.f / 16777216 % 256, h.f / 65536 % 256, h.f / 256 % 256, h.f % 256,
   h.g / 16777216 % 256, h.g / 65536 % 256, h.g / 256 % 256, h.g % 256,
   h.h / 16777216 % 256, h.h / 65536 % 256, h.h / 256 % 256, h.h % 256]

/-- SHA-256 of a byte string, as the 32 digest bytes. -/
def sha256 (msg : List Nat) : List Nat :=
  let len := msg.length
  let padz := (64 - (len + 9) % 64) % 64
  let bitlen := 8 * len
  let padded := msg ++ 128 :: (List.replicate padz 0 ++
    (List.range 8).map (fun j => bitlen / 2 ^ (8 * (7 - j)) % 256))
  let nb := padded.length / 64
  let hh := (List.range nb).foldl (fun h i => shaCompress h ((padded.drop (64 * i)).take 64)) shaH0
  digestBytes hh

/-! ## `main.py` — `BIP39Generator` -/

namespace Gen

/-- Embeds `BIP39Generator.load_wordlist`, on the list of lines of the dictionary
source.  `none` models the `None` return after a caught exception
(wrong entry count, or a file error). -/
def load_wordlist (lines : List PyStr) : Option (List PyStr) :=
  let words := lines.map pyStrip
  if words.length = 2048 then some words else none

/-- Value of a hex-digit code point, `none` for any other character. -/
def hexVal (c : Nat) : Option Nat :=
  if 48 ≤ c ∧ c ≤ 57 then some (c - 48)
  else if 97 ≤ c ∧ c ≤ 102 then some (c - 87)
  else if 65 ≤ c ∧ c ≤ 70 then some (c - 55)
  else none

/-- Digit part of Python `int(s, 16)`: a nonempty run of hex digits with
single underscores allowed only between digits. -/
def parseHexAux : PyStr → Nat → Option Nat
  | [], acc => some acc
  | 95 :: c :: rest, acc => (hexVal c).bind (fun d => parseHexAux rest (acc * 16 + d))
  | 95 :: [], _ => none
  | c :: rest, acc => (hexVal c).bind (fun d => parseHexAux rest (acc * 16 + d))

/-- A nonempty underscore-separated hex digit run. -/
def parseHexDigits : PyStr → Option Nat
  | [] => none
  | c :: rest => (hexVal c).bind (fun d => parseHexAux rest d)

/-- Python `int(s, 16)` after the sign: optional `0x`/`0X` prefix (itself
optionally followed by one underscore), then digits. -/
def parseHexBody (s : PyStr) : Option Nat :=
  match s with
  | 48 :: c :: rest =>
    if c = 120 ∨ c = 88 then
      match rest with
      | 95 :: r => parseHexDigits r
      | _ => parseHexDigits rest
    else parseHexDigits s
  | _ => parseHexDigits s

/-- Python `int(s, 16)`: strip whitespace, optional sign, optional base
prefix, digits; `none` models the `ValueError` on malformed input. -/
def pyIntBase16 (s : PyStr) : Option Int :=
  match pyStrip s with
  | 43 :: rest => (parseHexBody rest).map Int.ofNat
  | 45 :: rest => (parseHexBody rest).map (fun n => -(n : Int))
  | rest => (parseHexBody rest).map Int.ofNat

/-- Embeds `BIP39Generator.entropy_from_hex`: strip whitespace, delete every
occurrence of the substring `0x`, require 32 remaining characters, then
parse with Python `int(_, 16)`.  `none` models the raised `ValueError`. -/
def remove0x : PyStr → PyStr
  | [] => []
  | 48 :: 120 :: rest => remove0x rest
  | c :: rest => c :: remove0x rest

/-- Embeds `BIP39Generator.entropy_from_hex`. -/
def entropy_from_hex (s : PyStr) : Option Int :=
  let t := remove0x (pyStrip s)
  if t.length = 32 then pyIntBase16 t else none

/-- Embeds `BIP39Generator.entropy_from_binary`: strip whitespace, delete every
space character, require exactly 128 characters all `0`/`1`, then read the
value in base 2.  `none` models the raised `ValueError`. -/
def entropy_from_binary (s : PyStr) : Option Nat :=
  let t := (pyStrip s).filter (fun c => c != 32)
  if t.length = 128 then
    if t.all (fun c => c == 48 || c == 49) then
      some (t.foldl (fun a c => a * 2 + (if c = 49 then 1 else 0)) 0)
    else none
  else none

/-- Embeds `BIP39Generator.calculate_checksum`: the top 4 bits of the SHA-256 hash
of the 128-bit entropy packed big-endian into 16 bytes.  `none` models an
uncaught `OverflowError` from `to_bytes`. -/
def calculate_checksum (e : Nat) : Option Nat :=
  (pyToBytes e 16).bind (fun eb => ((sha256 eb).get? 0).map (fun b => b >>> 4))

/-- The 12 word indices `bits_to_mnemonic` extracts from the 132-bit
combined value. -/
def word_indices (combined : Nat) : List Nat :=
  (List.range 12).map (fun i => (combined >>> (121 - 11 * i)) &&& 0x7FF)

/-- Embeds `BIP39Generator.bits_to_mnemonic`: checksum, 132-bit combine, twelve
11-bit groups looked up in the dictionary.  `none` models the `None`
return on a missing wordlist or an uncaught exception. -/
def bits_to_mnemonic (wl : List PyStr) (e : Nat) : Option (List PyStr) :=
  if wl = [] then none
  else
    (calculate_checksum e).bind (fun cs =>
      sequenceOpt ((word_indices ((e <<< 4) ||| cs)).map (fun ix => wl.get? ix)))

end Gen

/-! ## `bip39_validator.py` — `BIP39Validator` -/

namespace Val

/-- Embeds `BIP39Validator.load_wordlist` (same body as the generator's). -/
def load_wordlist (lines : List PyStr) : Option (List PyStr) :=
  let words := lines.map pyStrip
  if words.length = 2048 then some words else none

/-- The `valid_lengths` mapping of `validate_word_count`:
word count to entropy bit length. -/
def valid_lengths (n : Nat) : Option Nat :=
  if n = 12 then some 128
  else if n = 15 then some 160
  else if n = 18 then some 192
  else if n = 21 then some 224
  else if n = 24 then some 256
  else none

/-- Embeds `BIP39Validator.validate_word_count`: pass/fail together with the
entropy bit length on success (the failure message carries the count,
which the caller's record stores anyway). -/
def validate_word_count (ws : List PyStr) : Bool × Option Nat :=
  match valid_lengths ws.length with
  | none => (false, none)
  | some L => (true, some L)

/-- The loop of `validate_words_in_wordlist`: all words absent from the
dictionary, with their 1-based positions, in order. -/
def invalid_words (wl : List PyStr) : List PyStr → Nat → List (Nat × PyStr)
  | [], _ => []
  | w :: ws, i =>
    if wl.contains w then invalid_words wl ws (i + 1)
    else (i + 1, w) :: invalid_words wl ws (i + 1)

/-- Outcome message of the dictionary-membership stage. -/
inductive WiwMsg where
  | notLoaded : WiwMsg
  | invalidWords : List (Nat × PyStr) → WiwMsg
  | allPresent : WiwMsg
deriving Repr, DecidableEq

/-- Embeds `BIP39Validator.validate_words_in_wordlist`. -/
def validate_words_in_wordlist (wl : List PyStr) (ws : List PyStr) : Bool × WiwMsg :=
  if wl = [] then (false, WiwMsg.notLoaded)
  else
    match invalid_words wl ws 0 with
    | [] => (true, WiwMsg.allPresent)
    | inv => (false, WiwMsg.invalidWords inv)

/-- One iteration of the bit-extraction loop of `calculate_checksum_bits`:
shift the accumulator and append bit `7 - i % 8` of digest byte `i / 8`
(`none` propagates an out-of-range digest access). -/
def csStep (digest : List Nat) (acc : Option Nat) (i : Nat) : Option Nat :=
  acc.bind (fun a => (digest.get? (i / 8)).map (fun b => (a <<< 1) ||| ((b >>> (7 - i % 8)) &&& 1)))

/-- Embeds `BIP39Validator.calculate_checksum_bits`: SHA-256 of the big-endian
packed entropy, then `entropy_bit_length / 32` bits taken most significant
bit first.  `none` models an uncaught exception (`OverflowError` from
`to_bytes`, or `IndexError` on the digest). -/
def calculate_checksum_bits (e L : Nat) : Option Nat :=
  (pyToBytes e (L / 8)).bind (fun eb =>
    (List.range (L / 32)).foldl (csStep (sha256 eb)) (some 0))

/-- Outcome message of the checksum stage: either the word whose index
lookup failed, or the expected and actual checksum values reported in the
message of `validate_checksum`. -/
inductive CsMsg where
  | wordNotFound : PyStr → CsMsg
  | checksumReport : Nat → Nat → CsMsg
deriving Repr, DecidableEq

/-- The index-collection loop of `validate_checksum`, stopping at the
first word absent from the dictionary. -/
def word_indices_of (wl : List PyStr) : List PyStr → Except PyStr (List Nat)
  | [] => Except.ok []
  | w :: ws =>
    match pyIndexOf wl w with
    | none => Except.error w
    | some i =>
      match word_indices_of wl ws with
      | Except.error e => Except.error e
      | Except.ok l => Except.ok (i :: l)

/-- Embeds `BIP39Validator.validate_checksum`.  The outer `none` models an
uncaught exception; a caught lookup failure or a checksum mismatch is an
ordinary `(false, message)` value. -/
def validate_checksum (wl : List PyStr) (ws : List PyStr) (L : Nat) : Option (Bool × CsMsg) :=
  match word_indices_of wl ws with
  | Except.error w => some (false, CsMsg.wordNotFound w)
  | Except.ok idxs =>
    let combined := idxs.foldl (fun a i => (a <<< 11) ||| i) 0
    let c := L / 32
    let entropy := combined >>> c
    let actual := combined &&& ((1 <<< c) - 1)
    match calculate_checksum_bits entropy L with
    | none => none
    | some expected => some (decide (actual = expected), CsMsg.checksumReport expected actual)

/-- The `results` dictionary built by `validate_mnemonic`: the normalised
mnemonic, its words, the per-stage outcomes (`none` = stage skipped), the
entropy bit length recorded once the checksum stage is reached, and the
overall flag. -/
structure VRes where
  mnemonic : PyStr
  word_count : Nat
  words : List PyStr
  wc : Bool × Option Nat
  wiw : Option (Bool × WiwMsg)
  checksum : Option (Bool × CsMsg)
  entropy_bits : Option Nat
  valid : Bool
deriving Repr, DecidableEq

/-- Return value of `validate_mnemonic`: either the early
`{"error": "Wordlist not loaded"}` dictionary or a full report. -/
inductive VOut where
  | noWordlist : VOut
  | report : VRes → VOut
deriving Repr, DecidableEq

/-- The body of `validate_mnemonic` after the input has been normalised
(stripped and lowercased). -/
def validate_core (wl : List PyStr) (m : PyStr) : Option (Bool × VOut) :=
  let ws := pySplit m
  match validate_word_count ws with
  | (true, some L) =>
    let (wv, wmsg) := validate_words_in_wordlist wl ws
    if wv then
      match validate_checksum wl ws L with
      | none => none
      | some (cv, cmsg) =>
        let v := true && (wv && cv)
        some (v, VOut.report
          { mnemonic := m, word_count := ws.length, words := ws,
            wc := (true, some L), wiw := some (wv, wmsg),
            checksum := some (cv, cmsg), entropy_bits := some L, valid := v })
    else
      some (false, VOut.report
        { mnemonic := m, word_count := ws.length, words := ws,
          wc := (true, some L), wiw := some (wv, wmsg), checksum := none,
          entropy_bits := none, valid := false })
  | _ =>
    some (false, VOut.report
      { mnemonic := m, word_count := ws.length, words := ws,
        wc := (false, none), wiw := none, checksum := none,
        entropy_bits := none, valid := false })

/-- Embeds `BIP39Validator.validate_mnemonic`: normalise, then run the three
stages in order.  The outer `none` models an uncaught exception. -/
def validate_mnemonic (wl : List PyStr) (input : PyStr) : Option (Bool × VOut) :=
  if wl = [] then some (false, VOut.noWordlist)
  else validate_core wl (pyLower (pyStrip input))

/-- The `binary_info` dictionary of `get_mnemonic_info`. -/
structure BinInfo where
  entropy : Nat
  checksum : Nat
  combined : Nat
  word_indices : List Nat
deriving Repr, DecidableEq

/-- Embeds `BIP39Validator.get_mnemonic_info`: validate, and augment a valid
report with the recovered entropy, checksum and word indices.  The outer
`none` models an uncaught exception. -/
def get_mnemonic_info (wl : List PyStr) (input : PyStr) : Option (VOut × Option BinInfo) :=
  match validate_mnemonic wl input with
  | none => none
  | some (false, out) => some (out, none)
  | some (true, out) =>
    match out with
    | VOut.noWordlist => none
    | VOut.report r =>
      match sequenceOpt (r.words.map (pyIndexOf wl)) with
      | none => none
      | some idxs =>
        let combined := idxs.foldl (fun a i => (a <<< 11) ||| i) 0
        match r.entropy_bits with
        | none => none
        | some L =>
          let c := L / 32
          some (VOut.report r,
                some ⟨combined >>> c, combined &&& ((1 <<< c) - 1), combined, idxs⟩)

end Val

/-! ## The spec's general-length encoder

The repository's encoder (`bits_to_mnemonic`) is fixed at 128-bit entropy;
the specification describes the encoding for every supported length.  The
definition below models the missing general case from the spec, reusing
the repository's own checksum function, and is proved to agree with
`bits_to_mnemonic` at length 128. -/

namespace Spec

/-- Modelled from the spec: `encode(entropy, entropyBitLength)` for the
general supported lengths (the source only implements the 128-bit case,
`BIP39Generator.bits_to_mnemonic`).  CombinedBits is
`(entropy <<< checksumLength) ||| checksum`; word `i` is the 11-bit group
at bit position `combinedLength - 11 - 11*i`, looked up in the
dictionary. -/
def encode (wl : List PyStr) (e L : Nat) : Option (List PyStr) :=
  (Val.calculate_checksum_bits e L).bind (fun cs =>
    sequenceOpt (((List.range ((L + L / 32) / 11)).map
      (fun i => (((e <<< (L / 32)) ||| cs) >>> (11 * ((L + L / 32) / 11 - 1 - i))) &&& 2047)).map
      (fun ix => wl.get? ix)))

end Spec

/-! ## Generic bit and list lemmas -/

/-- Concatenating disjoint bit ranges: `or` after a shift is addition. -/
lemma shiftLeft_or_eq_add {i k : Nat} (a : Nat) (h : i < 2 ^ k) :
    (a <<< k) ||| i = a * 2 ^ k + i := by
  rw [Nat.shiftLeft_eq, Nat.mul_comm, ← Nat.mul_add_lt_is_or h a, Nat.mul_comm]

/-- The low-bits mask used by `validate_checksum` is reduction modulo `2 ^ k`. -/
lemma and_shiftLeft_sub_one (x k : Nat) : x &&& ((1 <<< k) - 1) = x % 2 ^ k := by
  rw [Nat.shiftLeft_eq, one_mul, Nat.and_pow_two_sub_one_eq_mod]

/-- A `dropWhile` that can drop nothing. -/
lemma dropWhile_eq_self {α : Type} {p : α → Bool} {l : List α}
    (h : ∀ c ∈ l, p c = false) : l.dropWhile p = l := by
  cases l with
  | nil => rfl
  | cons c t => simp [List.dropWhile, h c (by simp)]

/-- The function `pyStrip` leaves a string with no whitespace at all unchanged. -/
lemma pyStrip_eq_self {s : PyStr} (h : ∀ c ∈ s, isPySpaceB c = false) :
    pyStrip s = s := by
  unfold pyStrip
  rw [dropWhile_eq_self h, dropWhile_eq_self (by intro c hc; exact h c (by simpa using hc)),
    List.reverse_reverse]

/-- Sequencing a list of present options succeeds, with the same length. -/
lemma sequenceOpt_isSome {α : Type} {l : List (Option α)}
    (h : ∀ o ∈ l, o.isSome) : ∃ ys, sequenceOpt l = some ys ∧ ys.length = l.length := by
  induction l with
  | nil => exact ⟨[], rfl, rfl⟩
  | cons o os ih =>
    obtain ⟨ys, hys, hlen⟩ := ih (fun o ho => h o (by simp [ho]))
    obtain ⟨a, ha⟩ := Option.isSome_iff_exists.mp (h o (by simp))
    exact ⟨a :: ys, by simp [sequenceOpt, ha, hys], by simp [hlen]⟩

/-- Pointwise description of a successful `sequenceOpt`. -/
lemma sequenceOpt_forall₂ {α : Type} {l : List (Option α)} {ys : List α}
    (h : sequenceOpt l = some ys) : List.Forall₂ (fun o y => o = some y) l ys := by
  induction l generalizing ys with
  | nil => cases h; constructor
  | cons o os ih =>
    cases o with
    | none => simp [sequenceOpt] at h
    | some a =>
      cases hrec : sequenceOpt os with
      | none => rw [sequenceOpt, hrec] at h; cases h
      | some zs =>
        rw [sequenceOpt, hrec] at h
        cases h
        exact List.Forall₂.cons rfl (ih hrec)

/-- Helper for `Forall₂` proofs below. -/
lemma forall₂_refl_some {α : Type} {l : List (Option α)} {ys : List α}
    (h : List.Forall₂ (fun o y => o = some y) l ys) : l = ys.map some := by
  induction h with
  | nil => rfl
  | cons h₁ _ ih => simp [h₁, ih]

/-- A `sequenceOpt` of pointwise-equal options succeeds with the given list. -/
lemma sequenceOpt_of_forall₂ {α : Type} {l : List (Option α)} {ys : List α}
    (h : List.Forall₂ (fun o y => o = some y) l ys) : sequenceOpt l = some ys := by
  induction h with
  | nil => rfl
  | cons h₁ _ ih => simp [sequenceOpt, h₁, ih]

/-- First index of an element that is present. -/
lemma pyIndexOf_lt_length {wl : List PyStr} {w : PyStr} {i : Nat}
    (h : pyIndexOf wl w = some i) : i < wl.length := by
  induction wl generalizing i with
  | nil => cases h
  | cons x xs ih =>
    rw [pyIndexOf] at h
    split at h
    · cases h; simp
    · cases hrec : pyIndexOf xs w with
      | none => rw [hrec] at h; cases h
      | some j => rw [hrec] at h; cases h; simpa using ih hrec

/-- On a duplicate-free list, looking up the element at `i` returns `i`. -/
lemma pyIndexOf_get {wl : List PyStr} (hnd : wl.Nodup) {i : Nat} {w : PyStr}
    (h : wl.get? i = some w) : pyIndexOf wl w = some i := by
  induction wl generalizing i with
  | nil => cases h
  | cons x xs ih =>
    cases i with
    | zero => cases h; simp [pyIndexOf]
    | succ j =>
      have hmem : w ∈ xs := List.get?_mem h
      have hne : x ≠ w := fun hxw => (List.nodup_cons.mp hnd).1 (hxw ▸ hmem)
      rw [pyIndexOf, if_neg hne, ih (List.nodup_cons.mp hnd).2 h]
      rfl

/-- Membership is exactly a successful index lookup. -/
lemma pyIndexOf_isSome_of_mem {wl : List PyStr} {w : PyStr} (h : w ∈ wl) :
    (pyIndexOf wl w).isSome := by
  induction wl with
  | nil => cases h
  | cons x xs ih =>
    rw [pyIndexOf]
    by_cases hxw : x = w
    · simp [hxw]
    · rcases List.mem_cons.mp h with hh | hh
      · exact absurd hh.symm hxw
      · rw [if_neg hxw]
        obtain ⟨j, hj⟩ := Option.isSome_iff_exists.mp (ih hh)
        simp [hj]

/-- The digest byte list always has the shape `first byte :: 31 more`,
with every byte below 256. -/
lemma sha256_shape (msg : List Nat) : ∃ b rest, sha256 msg = b :: rest ∧ b < 256 ∧
    rest.length = 31 ∧ ∀ x ∈ rest, x < 256 := by
  refine ⟨_, _, rfl, Nat.mod_lt _ (by norm_num), rfl, ?_⟩
  intro x hx
  fin_cases hx <;> omega

/-- Peeling the leading byte off a big-endian value. -/
lemma bytesToNat_cons (b : Nat) (rest : List Nat) :
    bytesToNat (b :: rest) = b * 256 ^ rest.length + bytesToNat rest := by
  have key : ∀ (l : List Nat) (a : Nat),
      l.foldl (fun x y => x * 256 + y) a = a * 256 ^ l.length + l.foldl (fun x y => x * 256 + y) 0 := by
    intro l
    induction l with
    | nil => intro a; simp
    | cons c t ih =>
      intro a
      rw [List.foldl_cons, ih (a * 256 + c), List.foldl_cons, ih (0 * 256 + c)]
      ring_nf
      rw [List.length_cons, pow_succ]
      ring
  rw [bytesToNat, List.foldl_cons, key, bytesToNat]
  ring_nf

/-- A byte string's value is bounded by `256 ^ length`. -/
lemma bytesToNat_lt {l : List Nat} (h : ∀ x ∈ l, x < 256) :
    bytesToNat l < 256 ^ l.length := by
  induction l with
  | nil => simp [bytesToNat]
  | cons b rest ih =>
    have hb : b < 256 := h b (by simp)
    have hr := ih (fun x hx => h x (by simp [hx]))
    rw [bytesToNat_cons]
    calc b * 256 ^ rest.length + bytesToNat rest
        < b * 256 ^ rest.length + 256 ^ rest.length := by omega
      _ = (b + 1) * 256 ^ rest.length := by ring
      _ ≤ 256 * 256 ^ rest.length := Nat.mul_le_mul_right _ (by omega)
      _ = 256 ^ (b :: rest).length := by rw [List.length_cons, pow_succ]; ring

/-- Taking the top `c` bits of a byte string is division on the first byte. -/
lemma topBits_head (b r c : Nat) (hr : r < 2 ^ 248) (hc : c ≤ 8) :
    (b * 2 ^ 248 + r) / 2 ^ (256 - c) = b / 2 ^ (8 - c) := by
  have hsplit : (2 : Nat) ^ (256 - c) = 2 ^ 248 * 2 ^ (8 - c) := by
    rw [← pow_add]
    congr 1
    omega
  rw [hsplit, ← Nat.div_div_eq_div_mul, Nat.mul_comm b, Nat.mul_add_div (by positivity),
    Nat.div_eq_of_lt hr, Nat.add_zero]

/-! ## Recombining 11-bit groups -/

/-- The shift-and-or accumulation used by the validator to rebuild the
combined value from word indices. -/
lemma foldl_shiftor_acc {idxs : List Nat} (h : ∀ i ∈ idxs, i < 2048) (a : Nat) :
    idxs.foldl (fun x i => (x <<< 11) ||| i) a =
      a * 2 ^ (11 * idxs.length) + idxs.foldl (fun x i => (x <<< 11) ||| i) 0 := by
  induction idxs generalizing a with
  | nil => simp
  | cons i t ih =>
    have hi : i < 2048 := h i (by simp)
    have ht : ∀ j ∈ t, j < 2048 := fun j hj => h j (by simp [hj])
    rw [List.foldl_cons, List.foldl_cons, ih ht, ih ht (0 <<< 11 ||| i),
      shiftLeft_or_eq_add a (by exact hi), shiftLeft_or_eq_add 0 (by exact hi)]
    simp only [List.length_cons]
    have : 11 * (t.length + 1) = 11 * t.length + 11 := by ring
    rw [this, pow_add]
    ring

/-- The rebuilt combined value of valid indices is below `2 ^ (11 n)`. -/
lemma foldl_shiftor_lt {idxs : List Nat} (h : ∀ i ∈ idxs, i < 2048) :
    idxs.foldl (fun x i => (x <<< 11) ||| i) 0 < 2 ^ (11 * idxs.length) := by
  induction idxs with
  | nil => simp
  | cons i t ih =>
    have hi : i < 2048 := h i (by simp)
    have ht : ∀ j ∈ t, j < 2048 := fun j hj => h j (by simp [hj])
    rw [List.foldl_cons, foldl_shiftor_acc ht, shiftLeft_or_eq_add 0 (by exact hi)]
    simp only [List.length_cons]
    have h1 : 11 * (t.length + 1) = 11 * t.length + 11 := by ring
    rw [h1, pow_add]
    have h2 := ih ht
    have h3 : (0 * 2 ^ 11 + i + 1) * 2 ^ (11 * t.length) ≤ 2 ^ 11 * 2 ^ (11 * t.length) := by
      apply Nat.mul_le_mul_right
      omega
    calc (0 * 2 ^ 11 + i) * 2 ^ (11 * t.length) + t.foldl (fun x i => (x <<< 11) ||| i) 0
        < (0 * 2 ^ 11 + i + 1) * 2 ^ (11 * t.length) := by
          have := Nat.add_mul 1 (0 * 2 ^ 11 + i) (2 ^ (11 * t.length))
          nlinarith
      _ ≤ 2 ^ 11 * 2 ^ (11 * t.length) := h3
      _ = 2 ^ (11 * t.length) * 2 ^ 11 := by ring

/-- Splitting a value below `2 ^ (11 n)` into `n` 11-bit groups, most
significant first, and recombining them with shift-and-or is the
identity. -/
lemma recombine_extract (n : Nat) :
    ∀ x a, x < 2 ^ (11 * n) →
    ((List.range n).map (fun i => (x >>> (11 * (n - 1 - i))) &&& 2047)).foldl
        (fun b i => (b <<< 11) ||| i) a = a * 2 ^ (11 * n) + x := by
  induction n with
  | zero =>
    intro x a hx
    interval_cases x
    simp
  | succ n ih =>
    intro x a hx
    have hidx : ∀ i ∈ List.range n,
        ((x % 2 ^ (11 * n)) >>> (11 * (n - 1 - i))) &&& 2047 =
          (x >>> (11 * (n + 1 - 1 - (i + 1)))) &&& 2047 := by
      intro i hi
      have hin : i < n := List.mem_range.mp hi
      have hij : n + 1 - 1 - (i + 1) = n - 1 - i := by omega
      rw [hij]
      have hmask : (2047 : Nat) = 2 ^ 11 - 1 := by norm_num
      rw [hmask, Nat.and_pow_two_sub_one_eq_mod, Nat.and_pow_two_sub_one_eq_mod,
        Nat.shiftRight_eq_div_pow, Nat.shiftRight_eq_div_pow,
        Nat.div_mod_eq_mod_mul_div, Nat.div_mod_eq_mod_mul_div]
      congr 1
      rw [Nat.mod_mod_of_dvd]
      rw [← pow_add]
      apply pow_dvd_pow
      omega
    rw [List.range_succ_eq_map, List.map_cons, List.foldl_cons, List.map_map]
    have hrw : ((fun i => (x >>> (11 * (n + 1 - 1 - i))) &&& 2047) ∘ Nat.succ) =
        (fun i => (x >>> (11 * (n + 1 - 1 - (i + 1)))) &&& 2047) := rfl
    rw [hrw, ← List.map_congr_left hidx]
    have hx0 : x % 2 ^ (11 * n) < 2 ^ (11 * n) := Nat.mod_lt _ (by positivity)
    rw [ih (x % 2 ^ (11 * n)) _ hx0]
    have hxmul : x < 2 ^ 11 * 2 ^ (11 * n) := by
      rw [← pow_add]
      have e : 11 + 11 * n = 11 * (n + 1) := by ring
      rw [e]
      exact hx
    have hdivlt : x / 2 ^ (11 * n) < 2 ^ 11 :=
      (Nat.div_lt_iff_lt_mul (by positivity)).mpr hxmul
    have hhead : (x >>> (11 * (n + 1 - 1 - 0))) &&& 2047 = x / 2 ^ (11 * n) := by
      have hmask : (2047 : Nat) = 2 ^ 11 - 1 := by norm_num
      have h1 : n + 1 - 1 - 0 = n := by omega
      rw [h1, hmask, Nat.shiftRight_eq_div_pow, Nat.and_pow_two_sub_one_eq_mod]
      exact Nat.mod_eq_of_lt hdivlt
    rw [hhead, shiftLeft_or_eq_add a hdivlt]
    have key : x / 2 ^ (11 * n) * 2 ^ (11 * n) + x % 2 ^ (11 * n) = x := by
      rw [Nat.mul_comm]
      exact Nat.div_add_mod x _
    calc (a * 2 ^ 11 + x / 2 ^ (11 * n)) * 2 ^ (11 * n) + x % 2 ^ (11 * n)
        = a * (2 ^ 11 * 2 ^ (11 * n)) + (x / 2 ^ (11 * n) * 2 ^ (11 * n) + x % 2 ^ (11 * n)) := by
          ring
      _ = a * 2 ^ (11 * (n + 1)) + x := by
          rw [key, ← pow_add]
          have e : 11 + 11 * n = 11 * (n + 1) := by ring
          rw [e]

/-! ## The checksum-bit extraction loop -/

/-- The bit-by-bit loop of `calculate_checksum_bits`, for at most 8 bits,
reads only the first digest byte and computes its top `c` bits. -/
lemma csLoop_head {digest : List Nat} {b : Nat} {rest : List Nat}
    (hd : digest = b :: rest) (hb : b < 256) :
    ∀ c, c ≤ 8 →
    (List.range c).foldl (Val.csStep digest) (some 0) = some (b / 2 ^ (8 - c)) := by
  intro c
  induction c with
  | zero =>
    intro _
    simp [Nat.div_eq_of_lt hb]
  | succ c ih =>
    intro hc
    rw [List.range_succ, List.foldl_append, ih (by omega), List.foldl_cons, List.foldl_nil]
    have hc8 : c / 8 = 0 := Nat.div_eq_of_lt (by omega)
    have hcm : c % 8 = c := Nat.mod_eq_of_lt (by omega)
    have hget : digest.get? 0 = some b := by rw [hd]; rfl
    rw [Val.csStep, hc8, hcm, hget, Option.some_bind, Option.map_some']
    have hbit : (b >>> (7 - c)) &&& 1 = b / 2 ^ (7 - c) % 2 := by
      rw [Nat.shiftRight_eq_div_pow, Nat.and_one_is_mod]
    have hlt : b / 2 ^ (7 - c) % 2 < 2 ^ 1 := by
      have h2 : b / 2 ^ (7 - c) % 2 < 2 := Nat.mod_lt _ (by omega)
      simpa using h2
    rw [hbit, shiftLeft_or_eq_add _ hlt]
    congr 1
    have hstep : 8 - c = (7 - c) + 1 := by omega
    have hdd : b / 2 ^ (8 - c) = b / 2 ^ (7 - c) / 2 := by
      rw [hstep, pow_succ, ← Nat.div_div_eq_div_mul]
    have h8c : 8 - (c + 1) = 7 - c := by omega
    rw [hdd, h8c, pow_one]
    omega

/-- For a supported length and in-range entropy, the checksum loop yields
the top `L / 32` bits of the digest, as a division on the first byte. -/
lemma calculate_checksum_bits_eq (L e : Nat)
    (hL : L = 128 ∨ L = 160 ∨ L = 192 ∨ L = 224 ∨ L = 256) (he : e < 2 ^ L) :
    ∃ b rest, sha256 (toBytesBE e (L / 8)) = b :: rest ∧ b < 256 ∧ rest.length = 31 ∧
      (∀ x ∈ rest, x < 256) ∧
      Val.calculate_checksum_bits e L = some (b / 2 ^ (8 - L / 32)) := by
  obtain ⟨b, rest, hd, hb, hlen, hall⟩ := sha256_shape (toBytesBE e (L / 8))
  refine ⟨b, rest, hd, hb, hlen, hall, ?_⟩
  have hbytes : pyToBytes e (L / 8) = some (toBytesBE e (L / 8)) := by
    rw [pyToBytes, if_pos]
    rcases hL with rfl | rfl | rfl | rfl | rfl <;> exact he
  rw [Val.calculate_checksum_bits, hbytes]
  have hc : L / 32 ≤ 8 := by rcases hL with rfl | rfl | rfl | rfl | rfl <;> norm_num
  exact csLoop_head hd hb _ hc

/-- The big-endian digest value determines the top bits: division of the
digest value by `2 ^ (256 - c)` is division of its first byte by
`2 ^ (8 - c)`. -/
lemma digest_topBits {b : Nat} {rest : List Nat} (hb : b < 256) (hlen : rest.length = 31)
    (hall : ∀ x ∈ rest, x < 256) {c : Nat} (hc : c ≤ 8) :
    bytesToNat (b :: rest) / 2 ^ (256 - c) = b / 2 ^ (8 - c) := by
  have hr : bytesToNat rest < 2 ^ 248 := by
    have h1 := bytesToNat_lt hall
    rw [hlen] at h1
    calc bytesToNat rest < 256 ^ 31 := h1
      _ = 2 ^ 248 := by norm_num
  rw [bytesToNat_cons, hlen]
  have h256 : (256 : Nat) ^ 31 = 2 ^ 248 := by norm_num
  rw [h256]
  exact topBits_head b _ c hr hc

/-- C7: claim as stated is false: `calculate_checksum_bits` performs no
length validation, and succeeds at the unsupported length 64 instead of
failing. -/
theorem C7_counterexample :
    ¬(64 = 128 ∨ 64 = 160 ∨ 64 = 192 ∨ 64 = 224 ∨ 64 = 256) ∧
      Val.calculate_checksum_bits 0 64 = some 2 := by
  constructor
  · decide
  · decide

/-- C7 (amended): the checksum function applies no length check; for each
supported entropy bit length `L` and every `L`-bit entropy value it
returns the top `L / 32` bits of the SHA-256 hash of the entropy packed
big-endian into `L / 8` bytes, taken most significant bit first. -/
theorem C7_checksum_top_bits (L e : Nat)
    (hL : L = 128 ∨ L = 160 ∨ L = 192 ∨ L = 224 ∨ L = 256) (he : e < 2 ^ L) :
    Val.calculate_checksum_bits e L =
      some (bytesToNat (sha256 (toBytesBE e (L / 8))) / 2 ^ (256 - L / 32)) := by
  obtain ⟨b, rest, hd, hb, hlen, hall, hcs⟩ := calculate_checksum_bits_eq L e hL he
  have hc : L / 32 ≤ 8 := by rcases hL with rfl | rfl | rfl | rfl | rfl <;> norm_num
  rw [hcs, hd, digest_topBits hb hlen hall hc]

/-- C7 witness: the amended theorem evaluated at `L = 128`, `e = 0`. -/
theorem C7_checksum_top_bits_witness :
    Val.calculate_checksum_bits 0 128 =
      some (bytesToNat (sha256 (toBytesBE 0 (128 / 8))) / 2 ^ (256 - 128 / 32)) :=
  C7_checksum_top_bits 128 0 (Or.inl rfl) (Nat.two_pow_pos 128)

/-- C8: claim as stated is false: a dictionary source with exactly 2048
entries is accepted even when it contains duplicate words (here, 2048
copies of the same word; entries 0 and 1 coincide). -/
theorem C8_counterexample :
    (Val.load_wordlist (List.replicate 2048 [97])).isSome = true ∧
      (List.replicate 2048 ([97] : PyStr)).get? 0 = (List.replicate 2048 ([97] : PyStr)).get? 1 := by
  constructor
  · simp only [Val.load_wordlist]
    rw [List.length_map, List.length_replicate, if_pos rfl]
    rfl
  · rfl

/-- C8 (amended): loading fails exactly when the source does not have 2048
entries (in particular for 2047 or 2049); a 2048-entry source is accepted
with no duplicate check, in both the validator and the generator. -/
theorem C8_load_wordlist (lines : List PyStr) :
    ((Val.load_wordlist lines).isSome ↔ lines.length = 2048) ∧
      ((Gen.load_wordlist lines).isSome ↔ lines.length = 2048) := by
  constructor
  · simp only [Val.load_wordlist, List.length_map]
    split <;> simp_all
  · simp only [Gen.load_wordlist, List.length_map]
    split <;> simp_all

/-- C8 witness: the amended theorem evaluated at a 2047-entry source
(rejected) and a 2048-entry source (accepted). -/
theorem C8_load_wordlist_witness :
    Val.load_wordlist (List.replicate 2047 [97]) = none ∧
      (Gen.load_wordlist (List.replicate 2048 [97])).isSome = true := by
  constructor
  · have h := (C8_load_wordlist (List.replicate 2047 [97])).1
    rw [List.length_replicate] at h
    exact Option.not_isSome_iff_eq_none.mp (fun hs => absurd (h.mp hs) (by decide))
  · exact (C8_load_wordlist (List.replicate 2048 [97])).2.mpr (List.length_replicate 2048 [97])

/-- C9: for every 128-bit entropy value, each of the 12 word indices the
encoder extracts from the 132-bit combined value is below 2048, and with a
2048-word dictionary every lookup succeeds: encoding returns 12 words. -/
theorem C9_indices_in_bounds (e : Nat) (wl : List PyStr)
    (he : e < 2 ^ 128) (hwl : wl.length = 2048) :
    ∃ cs, Gen.calculate_checksum e = some cs ∧
      (∀ ix ∈ Gen.word_indices ((e <<< 4) ||| cs), ix < 2048) ∧
      ∃ ws, Gen.bits_to_mnemonic wl e = some ws ∧ ws.length = 12 := by
  have hbytes : pyToBytes e 16 = some (toBytesBE e 16) := by
    rw [pyToBytes, if_pos]
    exact he
  obtain ⟨b, rest, hd, hb, hlen, hall⟩ := sha256_shape (toBytesBE e 16)
  have hget : (sha256 (toBytesBE e 16)).get? 0 = some b := by rw [hd]; rfl
  have hcs : Gen.calculate_checksum e = some (b >>> 4) := by
    have hmid : Gen.calculate_checksum e =
        Option.map (fun x => x >>> 4) ((sha256 (toBytesBE e 16)).get? 0) := by
      rw [Gen.calculate_checksum, hbytes, Option.some_bind]
    rw [hmid, hget, Option.map_some']
  refine ⟨b >>> 4, hcs, ?_, ?_⟩
  · intro ix hix
    rw [Gen.word_indices] at hix
    obtain ⟨i, _, rfl⟩ := List.mem_map.mp hix
    have : (((e <<< 4) ||| b >>> 4) >>> (121 - 11 * i)) &&& 0x7FF ≤ 0x7FF := Nat.and_le_right
    omega
  · have hne : wl ≠ [] := by
      intro h
      rw [h] at hwl
      simp at hwl
    rw [Gen.bits_to_mnemonic, if_neg hne, hcs]
    have hsome : ∀ o ∈ (Gen.word_indices ((e <<< 4) ||| b >>> 4)).map (fun ix => wl.get? ix),
        o.isSome := by
      intro o ho
      obtain ⟨ix, hix, rfl⟩ := List.mem_map.mp ho
      rw [Gen.word_indices] at hix
      obtain ⟨i, _, rfl⟩ := List.mem_map.mp hix
      have hlt : (((e <<< 4) ||| b >>> 4) >>> (121 - 11 * i)) &&& 0x7FF < wl.length := by
        have : (((e <<< 4) ||| b >>> 4) >>> (121 - 11 * i)) &&& 0x7FF ≤ 0x7FF := Nat.and_le_right
        omega
      rw [Option.isSome_iff_ne_none]
      intro hnone
      rw [List.get?_eq_none] at hnone
      omega
    obtain ⟨ws, hws, hwslen⟩ := sequenceOpt_isSome hsome
    refine ⟨ws, hws, ?_⟩
    rw [hwslen, List.length_map, Gen.word_indices, List.length_map, List.length_range]

/-- C9 witness: the theorem evaluated at `e = 0` with a concrete 2048-word
dictionary. -/
theorem C9_indices_in_bounds_witness :
    ∃ cs, Gen.calculate_checksum 0 = some cs ∧
      (∀ ix ∈ Gen.word_indices ((0 <<< 4) ||| cs), ix < 2048) ∧
      ∃ ws, Gen.bits_to_mnemonic (List.replicate 2048 [97]) 0 = some ws ∧ ws.length = 12 :=
  C9_indices_in_bounds 0 (List.replicate 2048 [97]) (Nat.two_pow_pos 128)
    (List.length_replicate 2048 [97])

/-- C2: with a dictionary in which index 0 is `abandon` and index 3 is
`about` (as in the canonical BIP39 English list), encoding the 128-bit
all-zero entropy yields exactly the 12-word mnemonic
`abandon` (eleven times) followed by `about`. -/
theorem C2_zero_entropy (wl : List PyStr)
    (h0 : wl.get? 0 = some (str "abandon")) (h3 : wl.get? 3 = some (str "about")) :
    Gen.bits_to_mnemonic wl 0 = some (List.replicate 11 (str "abandon") ++ [str "about"]) := by
  have hne : wl ≠ [] := by
    intro h
    rw [h] at h0
    cases h0
  have hcs : Gen.calculate_checksum 0 = some 3 := by decide
  have hmid : Gen.bits_to_mnemonic wl 0 =
      sequenceOpt ((Gen.word_indices ((0 <<< 4) ||| 3)).map (fun ix => wl.get? ix)) := by
    rw [Gen.bits_to_mnemonic, if_neg hne, hcs, Option.some_bind]
  have hidx : Gen.word_indices ((0 <<< 4) ||| 3) = [0, 0, 0, 0, 0, 0, 0, 0, 0, 0, 0, 3] := by
    decide
  rw [hmid, hidx]
  simp only [List.map_cons, List.map_nil, h0, h3]
  rfl

/-- C2 witness: the theorem evaluated at a concrete four-word dictionary. -/
theorem C2_zero_entropy_witness :
    Gen.bits_to_mnemonic [str "abandon", str "b", str "c", str "about"] 0 =
      some (List.replicate 11 (str "abandon") ++ [str "about"]) :=
  C2_zero_entropy [str "abandon", str "b", str "c", str "about"] (by rfl) (by rfl)

/-! ## Entropy input formats (C6) -/

/-- The character classes accepted by `hexVal`. -/
lemma hexVal_isSome_iff {c : Nat} : (Gen.hexVal c).isSome ↔
    (48 ≤ c ∧ c ≤ 57) ∨ (97 ≤ c ∧ c ≤ 102) ∨ (65 ≤ c ∧ c ≤ 70) := by
  rw [Gen.hexVal]
  split_ifs <;> simp <;> omega

/-- Hex digits are not whitespace. -/
lemma hexVal_not_space {c : Nat} (h : (Gen.hexVal c).isSome) : isPySpaceB c = false := by
  have := hexVal_isSome_iff.mp h
  simp [isPySpaceB]
  omega

/-- The function `remove0x` leaves a string without the letter `x` unchanged. -/
lemma remove0x_eq_self : ∀ s : PyStr, (∀ c ∈ s, c ≠ 120) → Gen.remove0x s = s := by
  intro s
  induction s using Gen.remove0x.induct with
  | case1 => intro _; rfl
  | case2 rest ih =>
    intro h
    exact absurd rfl (h 120 (by simp))
  | case3 c rest hne ih =>
    intro h
    rw [Gen.remove0x.eq_def]
    split
    · rename_i heq
      cases heq
    · rename_i rest' heq
      have h120 : (120 : Nat) ∈ c :: rest := by rw [heq]; simp
      exact absurd rfl (h 120 h120)
    · rename_i c' rest' _ heq
      cases heq
      rw [ih (fun x hx => h x (by simp [hx]))]

/-- The digit loop of `int(_, 16)` on a pure hex-digit string folds the
digits into the value. -/
lemma parseHexAux_digits : ∀ (s : PyStr) (acc : Nat), (∀ c ∈ s, (Gen.hexVal c).isSome) →
    Gen.parseHexAux s acc = some (s.foldl (fun a c => a * 16 + (Gen.hexVal c).getD 0) acc) := by
  intro s
  induction s with
  | nil => intro acc _; rfl
  | cons c rest ih =>
    intro acc h
    have hc : (Gen.hexVal c).isSome := h c (by simp)
    have hc95 : c ≠ 95 := by
      have := hexVal_isSome_iff.mp hc
      omega
    obtain ⟨d, hd⟩ := Option.isSome_iff_exists.mp hc
    rw [Gen.parseHexAux.eq_def]
    split
    · rename_i heq
      cases heq
    · rename_i c' rest' heq
      rw [List.cons.injEq] at heq
      exact absurd heq.1 hc95
    · rename_i heq
      rw [List.cons.injEq] at heq
      exact absurd heq.1 hc95
    · rename_i c' rest' _ heq
      cases heq
      rw [hd, Option.some_bind, ih _ (fun x hx => h x (by simp [hx])), List.foldl_cons, hd]
      simp

/-- Python `int(_, 16)` on a nonempty pure hex-digit string. -/
lemma parseHexDigits_digits {c : Nat} {rest : PyStr}
    (h : ∀ x ∈ c :: rest, (Gen.hexVal x).isSome) :
    Gen.parseHexDigits (c :: rest) =
      some ((c :: rest).foldl (fun a x => a * 16 + (Gen.hexVal x).getD 0) 0) := by
  obtain ⟨d, hd⟩ := Option.isSome_iff_exists.mp (h c (by simp))
  rw [Gen.parseHexDigits, hd, Option.some_bind,
    parseHexAux_digits rest d (fun x hx => h x (by simp [hx])), List.foldl_cons, hd]
  simp

/-- The body parser takes the plain-digits branch on a pure hex-digit
string. -/
lemma parseHexBody_digits {c : Nat} {rest : PyStr}
    (h : ∀ x ∈ c :: rest, (Gen.hexVal x).isSome) :
    Gen.parseHexBody (c :: rest) =
      some ((c :: rest).foldl (fun a x => a * 16 + (Gen.hexVal x).getD 0) 0) := by
  rw [Gen.parseHexBody.eq_def]
  split
  · rename_i c2 rest2 heq
    have hc2 : (Gen.hexVal c2).isSome := by
      apply h c2
      rw [heq]
      simp
    rw [hexVal_isSome_iff] at hc2
    rw [if_neg (by omega)]
    exact parseHexDigits_digits h
  · exact parseHexDigits_digits h

/-- The parser `pyIntBase16` on a nonempty pure hex-digit string is the big-endian
hex value. -/
lemma pyIntBase16_digits {c : Nat} {rest : PyStr}
    (h : ∀ x ∈ c :: rest, (Gen.hexVal x).isSome) :
    Gen.pyIntBase16 (c :: rest) =
      some (Int.ofNat ((c :: rest).foldl (fun a x => a * 16 + (Gen.hexVal x).getD 0) 0)) := by
  have hstrip : pyStrip (c :: rest) = c :: rest :=
    pyStrip_eq_self (fun x hx => hexVal_not_space (h x hx))
  rw [Gen.pyIntBase16.eq_def, hstrip]
  have hc : (Gen.hexVal c).isSome := h c (by simp)
  rw [hexVal_isSome_iff] at hc
  split
  · rename_i heq
    rw [List.cons.injEq] at heq
    omega
  · rename_i heq
    rw [List.cons.injEq] at heq
    omega
  · rename_i hne1 hne2
    rw [parseHexBody_digits h]
    rfl

set_option maxRecDepth 4000 in
/-- C6: claim as stated is false: this 129-character binary input (64
zeros, a space, 64 more zeros) deviates from the required shape (exactly
128 characters drawn from `{0,1}`) yet is accepted, because the code
deletes embedded spaces before checking. -/
theorem C6_counterexample :
    (List.replicate 64 48 ++ 32 :: List.replicate 64 48 : PyStr).length = 129 ∧
      Gen.entropy_from_binary (List.replicate 64 48 ++ 32 :: List.replicate 64 48) = some 0 := by
  constructor
  · decide
  · decide

/-- C6 (amended): inputs of the canonical shapes are accepted with the
correct value — a hex input of exactly 32 hex digits yields their
big-endian value, and a binary input of exactly 128 characters from
`{0,1}` yields their big-endian value.  (Acceptance is wider than the
claim states: the code strips surrounding whitespace, deletes every `0x`
substring (hex) or space (binary), and then accepts anything Python
`int(_, 16)` parses, e.g. signed or underscore-separated strings, as the
counterexample shows.) -/
theorem C6_entropy_formats :
    (∀ s : PyStr, s.length = 32 → (∀ c ∈ s, (Gen.hexVal c).isSome) →
      Gen.entropy_from_hex s =
        some (Int.ofNat (s.foldl (fun a c => a * 16 + (Gen.hexVal c).getD 0) 0))) ∧
    (∀ s : PyStr, s.length = 128 → (∀ c ∈ s, c = 48 ∨ c = 49) →
      Gen.entropy_from_binary s = some (s.foldl (fun a c => a * 2 + (c - 48)) 0)) := by
  constructor
  · intro s hlen hdig
    have hstrip : pyStrip s = s := pyStrip_eq_self (fun x hx => hexVal_not_space (hdig x hx))
    have hnox : Gen.remove0x s = s := by
      apply remove0x_eq_self
      intro x hx
      have := hexVal_isSome_iff.mp (hdig x hx)
      omega
    rw [Gen.entropy_from_hex, hstrip, hnox, if_pos hlen]
    cases s with
    | nil => cases hlen
    | cons c rest => exact pyIntBase16_digits hdig
  · intro s hlen hbin
    have hstrip : pyStrip s = s := by
      apply pyStrip_eq_self
      intro x hx
      rcases hbin x hx with rfl | rfl <;> rfl
    have hfilter : s.filter (fun c => c != 32) = s := by
      rw [List.filter_eq_self]
      intro x hx
      rcases hbin x hx with rfl | rfl <;> rfl
    rw [Gen.entropy_from_binary, hstrip, hfilter, if_pos hlen, if_pos]
    · congr 1
      apply List.foldl_ext
      intro a c hc
      rcases hbin c hc with rfl | rfl <;> rfl
    · rw [List.all_eq_true]
      intro x hx
      rcases hbin x hx with rfl | rfl <;> rfl

set_option maxRecDepth 4000 in
/-- C6 witness: the amended theorem evaluated at the all-zero canonical
hex and binary inputs. -/
theorem C6_entropy_formats_witness :
    Gen.entropy_from_hex (List.replicate 32 48) =
        some (Int.ofNat ((List.replicate 32 48 : PyStr).foldl
          (fun a c => a * 16 + (Gen.hexVal c).getD 0) 0)) ∧
      Gen.entropy_from_binary (List.replicate 128 48) =
        some ((List.replicate 128 48 : PyStr).foldl (fun a c => a * 2 + (c - 48)) 0) :=
  ⟨C6_entropy_formats.1 (List.replicate 32 48) (by decide) (by decide),
   C6_entropy_formats.2 (List.replicate 128 48) (by decide) (by decide)⟩

/-! ## The validation pipeline (C3, C4, C5) -/

/-- Inverting the word-count/entropy-length mapping. -/
lemma valid_lengths_eq {n L : Nat} (h : Val.valid_lengths n = some L) :
    (n = 12 ∧ L = 128) ∨ (n = 15 ∧ L = 160) ∨ (n = 18 ∧ L = 192) ∨
      (n = 21 ∧ L = 224) ∨ (n = 24 ∧ L = 256) := by
  rw [Val.valid_lengths] at h
  split_ifs at h <;> simp_all

/-- The mapping is total on the five valid counts. -/
lemma valid_lengths_of_count {n : Nat}
    (h : n = 12 ∨ n = 15 ∨ n = 18 ∨ n = 21 ∨ n = 24) :
    Val.valid_lengths n =
      some (if n = 12 then 128 else if n = 15 then 160 else if n = 18 then 192
            else if n = 21 then 224 else 256) := by
  rcases h with rfl | rfl | rfl | rfl | rfl <;> rfl

/-- The mapping rejects exactly the other counts. -/
lemma valid_lengths_none {n : Nat}
    (h : ¬(n = 12 ∨ n = 15 ∨ n = 18 ∨ n = 21 ∨ n = 24)) :
    Val.valid_lengths n = none := by
  rw [Val.valid_lengths]
  rw [if_neg (by omega), if_neg (by omega), if_neg (by omega), if_neg (by omega),
    if_neg (by omega)]

/-- Membership of the list of absent words collected by the
dictionary-membership loop. -/
lemma invalid_words_mem (wl : List PyStr) :
    ∀ (ws : List PyStr) (i p : Nat) (w : PyStr),
    ((p, w) ∈ Val.invalid_words wl ws i ↔
      ∃ j, ws.get? j = some w ∧ p = i + j + 1 ∧ ¬wl.contains w) := by
  intro ws
  induction ws with
  | nil =>
    intro i p w
    simp [Val.invalid_words]
  | cons w0 rest ih =>
    intro i p w
    rw [Val.invalid_words]
    split
    · rename_i hc
      rw [ih (i + 1) p w]
      constructor
      · rintro ⟨j, hj, hp, hnc⟩
        exact ⟨j + 1, by simpa using hj, by omega, hnc⟩
      · rintro ⟨j, hj, hp, hnc⟩
        cases j with
        | zero =>
          rw [List.get?_cons_zero] at hj
          cases hj
          exact absurd hc hnc
        | succ j =>
          rw [List.get?_cons_succ] at hj
          exact ⟨j, hj, by omega, hnc⟩
    · rename_i hc
      rw [List.mem_cons, ih (i + 1) p w]
      constructor
      · rintro (heq | ⟨j, hj, hp, hnc⟩)
        · rw [Prod.mk.injEq] at heq
          exact ⟨0, by rw [heq.2]; rfl, by omega, by rw [heq.2]; exact hc⟩
        · exact ⟨j + 1, by simpa using hj, by omega, hnc⟩
      · rintro ⟨j, hj, hp, hnc⟩
        cases j with
        | zero =>
          rw [List.get?_cons_zero] at hj
          cases hj
          left
          rw [Prod.mk.injEq]
          exact ⟨by omega, rfl⟩
        | succ j =>
          rw [List.get?_cons_succ] at hj
          exact Or.inr ⟨j, hj, by omega, hnc⟩

/-- The loop collects nothing exactly when every word is present. -/
lemma invalid_words_eq_nil {wl : List PyStr} :
    ∀ (ws : List PyStr) (i : Nat),
    (Val.invalid_words wl ws i = [] ↔ ∀ w ∈ ws, wl.contains w) := by
  intro ws
  induction ws with
  | nil => intro i; simp [Val.invalid_words]
  | cons w0 rest ih =>
    intro i
    rw [Val.invalid_words]
    split
    · rename_i hc
      rw [ih (i + 1)]
      constructor
      · intro h w hw
        rcases List.mem_cons.mp hw with rfl | hw
        · exact hc
        · exact h w hw
      · intro h w hw
        exact h w (by simp [hw])
    · rename_i hc
      constructor
      · intro h
        cases h
      · intro h
        exact absurd (h w0 (by simp)) hc

/-- On an all-present word list, the index-collection loop of
`validate_checksum` succeeds with one in-range index per word. -/
lemma word_indices_of_ok {wl : List PyStr} :
    ∀ {ws : List PyStr}, (∀ w ∈ ws, wl.contains w) →
    ∃ idxs, Val.word_indices_of wl ws = Except.ok idxs ∧ idxs.length = ws.length ∧
      (∀ i ∈ idxs, i < wl.length) ∧
      List.Forall₂ (fun w i => pyIndexOf wl w = some i) ws idxs := by
  intro ws
  induction ws with
  | nil => intro _; exact ⟨[], rfl, rfl, by simp, List.Forall₂.nil⟩
  | cons w rest ih =>
    intro h
    have hw : w ∈ wl := by
      have := h w (by simp)
      simpa [List.contains] using this
    obtain ⟨i, hi⟩ := Option.isSome_iff_exists.mp (pyIndexOf_isSome_of_mem hw)
    obtain ⟨idxs, hok, hlen, hbound, hfa⟩ := ih (fun x hx => h x (by simp [hx]))
    refine ⟨i :: idxs, ?_, by simp [hlen], ?_, List.Forall₂.cons hi hfa⟩
    · rw [Val.word_indices_of, hi, hok]
    · intro j hj
      rcases List.mem_cons.mp hj with rfl | hj
      · exact pyIndexOf_lt_length hi
      · exact hbound j hj

/-- On a 2048-word dictionary and a word count matching a supported
entropy length, the checksum stage of the validator runs to completion:
it returns a report carrying both the recomputed expected checksum and
the actual low `L / 32` bits, and its flag is their comparison. -/
lemma validate_checksum_ok {wl ws : List PyStr} {L : Nat} (hwl : wl.length = 2048)
    (hL : L = 128 ∨ L = 160 ∨ L = 192 ∨ L = 224 ∨ L = 256)
    (hcount : 11 * ws.length = L + L / 32)
    (hmem : ∀ w ∈ ws, wl.contains w) :
    ∃ idxs expected,
      Val.word_indices_of wl ws = Except.ok idxs ∧
      List.Forall₂ (fun w i => pyIndexOf wl w = some i) ws idxs ∧
      Val.calculate_checksum_bits
        ((idxs.foldl (fun a i => (a <<< 11) ||| i) 0) >>> (L / 32)) L = some expected ∧
      Val.validate_checksum wl ws L =
        some (decide (((idxs.foldl (fun a i => (a <<< 11) ||| i) 0) &&&
                ((1 <<< (L / 32)) - 1)) = expected),
              Val.CsMsg.checksumReport expected
                ((idxs.foldl (fun a i => (a <<< 11) ||| i) 0) &&& ((1 <<< (L / 32)) - 1))) := by
  obtain ⟨idxs, hok, hlen, hbound, hfa⟩ := word_indices_of_ok hmem
  have hbound' : ∀ i ∈ idxs, i < 2048 := fun i hi => hwl ▸ hbound i hi
  have hcomb : idxs.foldl (fun a i => (a <<< 11) ||| i) 0 < 2 ^ (L + L / 32) := by
    have h1 := foldl_shiftor_lt hbound'
    rw [hlen, hcount] at h1
    exact h1
  have hent : (idxs.foldl (fun a i => (a <<< 11) ||| i) 0) >>> (L / 32) < 2 ^ L := by
    rw [Nat.shiftRight_eq_div_pow, Nat.div_lt_iff_lt_mul (by positivity), ← pow_add]
    exact hcomb
  obtain ⟨b, rest, hd, hb, hrlen, hall, hcs⟩ := calculate_checksum_bits_eq L _ hL hent
  refine ⟨idxs, b / 2 ^ (8 - L / 32), hok, hfa, hcs, ?_⟩
  rw [Val.validate_checksum, hok]
  simp only [hcs]

/-- The full pipeline when word count passes and a word is absent:
`InvalidWord` with the collected list, checksum stage skipped. -/
lemma validate_core_invalid_words {wl : List PyStr} {m : PyStr} {L : Nat} (hne : wl ≠ [])
    (hvl : Val.valid_lengths (pySplit m).length = some L)
    (hinv : Val.invalid_words wl (pySplit m) 0 ≠ []) :
    Val.validate_core wl m = some (false, Val.VOut.report
      { mnemonic := m, word_count := (pySplit m).length, words := pySplit m,
        wc := (true, some L),
        wiw := some (false, Val.WiwMsg.invalidWords (Val.invalid_words wl (pySplit m) 0)),
        checksum := none, entropy_bits := none, valid := false }) := by
  have hwc : Val.validate_word_count (pySplit m) = (true, some L) := by
    rw [Val.validate_word_count, hvl]
  have hwiw : Val.validate_words_in_wordlist wl (pySplit m) =
      (false, Val.WiwMsg.invalidWords (Val.invalid_words wl (pySplit m) 0)) := by
    rw [Val.validate_words_in_wordlist, if_neg hne]
    cases hli : Val.invalid_words wl (pySplit m) 0 with
    | nil => exact absurd hli hinv
    | cons a t => rfl
  rw [Val.validate_core, hwc, hwiw]
  rfl

/-- The full pipeline when word count passes and every word is in the
dictionary: all three stages are recorded, and the overall flag is the
conjunction of the three stage flags. -/
lemma validate_core_all_present {wl : List PyStr} {m : PyStr} {L : Nat} (hwl : wl.length = 2048)
    (hvl : Val.valid_lengths (pySplit m).length = some L)
    (hmem : ∀ w ∈ pySplit m, wl.contains w) :
    ∃ idxs expected,
      Val.word_indices_of wl (pySplit m) = Except.ok idxs ∧
      List.Forall₂ (fun w i => pyIndexOf wl w = some i) (pySplit m) idxs ∧
      Val.calculate_checksum_bits
        ((idxs.foldl (fun a i => (a <<< 11) ||| i) 0) >>> (L / 32)) L = some expected ∧
      Val.validate_checksum wl (pySplit m) L =
        some (decide (((idxs.foldl (fun a i => (a <<< 11) ||| i) 0) &&&
                ((1 <<< (L / 32)) - 1)) = expected),
              Val.CsMsg.checksumReport expected
                ((idxs.foldl (fun a i => (a <<< 11) ||| i) 0) &&& ((1 <<< (L / 32)) - 1))) ∧
      Val.validate_core wl m =
        some (decide (((idxs.foldl (fun a i => (a <<< 11) ||| i) 0) &&&
                ((1 <<< (L / 32)) - 1)) = expected),
          Val.VOut.report
            { mnemonic := m, word_count := (pySplit m).length, words := pySplit m,
              wc := (true, some L), wiw := some (true, Val.WiwMsg.allPresent),
              checksum := some (decide (((idxs.foldl (fun a i => (a <<< 11) ||| i) 0) &&&
                    ((1 <<< (L / 32)) - 1)) = expected),
                  Val.CsMsg.checksumReport expected
                    ((idxs.foldl (fun a i => (a <<< 11) ||| i) 0) &&& ((1 <<< (L / 32)) - 1))),
              entropy_bits := some L,
              valid := decide (((idxs.foldl (fun a i => (a <<< 11) ||| i) 0) &&&
                  ((1 <<< (L / 32)) - 1)) = expected) }) := by
  have hne : wl ≠ [] := by
    intro h
    rw [h] at hwl
    cases hwl
  have hL : L = 128 ∨ L = 160 ∨ L = 192 ∨ L = 224 ∨ L = 256 := by
    rcases valid_lengths_eq hvl with ⟨_, rfl⟩ | ⟨_, rfl⟩ | ⟨_, rfl⟩ | ⟨_, rfl⟩ | ⟨_, rfl⟩ <;> tauto
  have hcount : 11 * (pySplit m).length = L + L / 32 := by
    rcases valid_lengths_eq hvl with ⟨h1, h2⟩ | ⟨h1, h2⟩ | ⟨h1, h2⟩ | ⟨h1, h2⟩ | ⟨h1, h2⟩ <;>
      rw [h1, h2]
  obtain ⟨idxs, expected, hok, hfa, hcsb, hvc⟩ := validate_checksum_ok hwl hL hcount hmem
  have hwc : Val.validate_word_count (pySplit m) = (true, some L) := by
    rw [Val.validate_word_count, hvl]
  have hwiw : Val.validate_words_in_wordlist wl (pySplit m) = (true, Val.WiwMsg.allPresent) := by
    rw [Val.validate_words_in_wordlist, if_neg hne, (invalid_words_eq_nil (pySplit m) 0).mpr hmem]
  refine ⟨idxs, expected, hok, hfa, hcsb, hvc, ?_⟩
  rw [Val.validate_core, hwc, hwiw]
  simp only [hvc, Bool.true_and, if_true]

/-- C4: validation fails at the word-count stage, with the later stages
skipped, exactly when the word count is not one of 12, 15, 18, 21, 24;
on those five counts the stage passes and fixes the entropy bit length by
the mapping 12 to 128, 15 to 160, 18 to 192, 21 to 224, 24 to 256. -/
theorem C4_word_count_stage (wl : List PyStr) (input : PyStr) (hwl : wl.length = 2048) :
    (¬((pySplit (pyLower (pyStrip input))).length = 12 ∨
        (pySplit (pyLower (pyStrip input))).length = 15 ∨
        (pySplit (pyLower (pyStrip input))).length = 18 ∨
        (pySplit (pyLower (pyStrip input))).length = 21 ∨
        (pySplit (pyLower (pyStrip input))).length = 24) →
      Val.validate_mnemonic wl input = some (false, Val.VOut.report
        { mnemonic := pyLower (pyStrip input),
          word_count := (pySplit (pyLower (pyStrip input))).length,
          words := pySplit (pyLower (pyStrip input)),
          wc := (false, none), wiw := none, checksum := none,
          entropy_bits := none, valid := false })) ∧
    (((pySplit (pyLower (pyStrip input))).length = 12 ∨
        (pySplit (pyLower (pyStrip input))).length = 15 ∨
        (pySplit (pyLower (pyStrip input))).length = 18 ∨
        (pySplit (pyLower (pyStrip input))).length = 21 ∨
        (pySplit (pyLower (pyStrip input))).length = 24) →
      ∃ b r L, Val.validate_mnemonic wl input = some (b, Val.VOut.report r) ∧
        r.wc = (true, some L) ∧
        (((pySplit (pyLower (pyStrip input))).length, L) = (12, 128) ∨
          ((pySplit (pyLower (pyStrip input))).length, L) = (15, 160) ∨
          ((pySplit (pyLower (pyStrip input))).length, L) = (18, 192) ∨
          ((pySplit (pyLower (pyStrip input))).length, L) = (21, 224) ∨
          ((pySplit (pyLower (pyStrip input))).length, L) = (24, 256))) := by
  have hne : wl ≠ [] := by
    intro h
    rw [h] at hwl
    cases hwl
  have hv : Val.validate_mnemonic wl input = Val.validate_core wl (pyLower (pyStrip input)) := by
    rw [Val.validate_mnemonic, if_neg hne]
  constructor
  · intro hcount
    have hvl := valid_lengths_none hcount
    have hwc : Val.validate_word_count (pySplit (pyLower (pyStrip input))) = (false, none) := by
      rw [Val.validate_word_count, hvl]
    rw [hv, Val.validate_core, hwc]
  · intro hcount
    have hvl := valid_lengths_of_count hcount
    cases hinv : Val.invalid_words wl (pySplit (pyLower (pyStrip input))) 0 with
    | nil =>
      have hmem := (invalid_words_eq_nil (pySplit (pyLower (pyStrip input))) 0).mp hinv
      obtain ⟨idxs, expected, _, _, _, _, hcore⟩ := validate_core_all_present hwl hvl hmem
      refine ⟨_, _, _, by rw [hv, hcore], rfl, ?_⟩
      rcases hcount with h | h | h | h | h <;> rw [h] <;> simp
    | cons a t =>
      have hcore := validate_core_invalid_words hne hvl (by rw [hinv]; simp)
      refine ⟨_, _, _, by rw [hv, hcore], rfl, ?_⟩
      rcases hcount with h | h | h | h | h <;> rw [h] <;> simp

set_option maxRecDepth 8000 in
/-- C4 witness: the theorem evaluated at an 11-word input (count stage
fails, later stages skipped) and at a 12-word input (count stage passes
with 128-bit entropy length). -/
theorem C4_word_count_stage_witness :
    (Val.validate_mnemonic (List.replicate 2048 [97]) (joinWords (List.replicate 11 [97])) =
      some (false, Val.VOut.report
        { mnemonic := pyLower (pyStrip (joinWords (List.replicate 11 [97]))),
          word_count := (pySplit (pyLower (pyStrip (joinWords (List.replicate 11 [97]))))).length,
          words := pySplit (pyLower (pyStrip (joinWords (List.replicate 11 [97])))),
          wc := (false, none), wiw := none, checksum := none,
          entropy_bits := none, valid := false })) ∧
    (∃ b r L, Val.validate_mnemonic (List.replicate 2048 [97])
        (joinWords (List.replicate 12 [97])) = some (b, Val.VOut.report r) ∧
      r.wc = (true, some L) ∧
      (((pySplit (pyLower (pyStrip (joinWords (List.replicate 12 [97]))))).length, L) = (12, 128) ∨
        ((pySplit (pyLower (pyStrip (joinWords (List.replicate 12 [97]))))).length, L) = (15, 160) ∨
        ((pySplit (pyLower (pyStrip (joinWords (List.replicate 12 [97]))))).length, L) = (18, 192) ∨
        ((pySplit (pyLower (pyStrip (joinWords (List.replicate 12 [97]))))).length, L) = (21, 224) ∨
        ((pySplit (pyLower (pyStrip (joinWords (List.replicate 12 [97]))))).length, L) = (24, 256))) :=
  ⟨(C4_word_count_stage (List.replicate 2048 [97]) (joinWords (List.replicate 11 [97]))
      (List.length_replicate 2048 [97])).1 (by decide),
   (C4_word_count_stage (List.replicate 2048 [97]) (joinWords (List.replicate 12 [97]))
      (List.length_replicate 2048 [97])).2 (by decide)⟩

/-- C5: on a count-valid mnemonic with at least one word absent from the
dictionary, validation fails at the membership stage with the complete
list of 1-based positions and absent words (not only the first), and the
checksum stage is skipped. -/
theorem C5_invalid_word_stage (wl : List PyStr) (input : PyStr) (hwl : wl.length = 2048)
    (hcount : (pySplit (pyLower (pyStrip input))).length = 12 ∨
      (pySplit (pyLower (pyStrip input))).length = 15 ∨
      (pySplit (pyLower (pyStrip input))).length = 18 ∨
      (pySplit (pyLower (pyStrip input))).length = 21 ∨
      (pySplit (pyLower (pyStrip input))).length = 24)
    (hbad : ∃ w ∈ pySplit (pyLower (pyStrip input)), ¬wl.contains w) :
    ∃ L inv, Val.validate_mnemonic wl input = some (false, Val.VOut.report
      { mnemonic := pyLower (pyStrip input),
        word_count := (pySplit (pyLower (pyStrip input))).length,
        words := pySplit (pyLower (pyStrip input)),
        wc := (true, some L),
        wiw := some (false, Val.WiwMsg.invalidWords inv),
        checksum := none, entropy_bits := none, valid := false }) ∧
      (∀ p w, (p, w) ∈ inv ↔
        ∃ j, (pySplit (pyLower (pyStrip input))).get? j = some w ∧ p = j + 1 ∧
          ¬wl.contains w) := by
  have hne : wl ≠ [] := by
    intro h
    rw [h] at hwl
    cases hwl
  have hv : Val.validate_mnemonic wl input = Val.validate_core wl (pyLower (pyStrip input)) := by
    rw [Val.validate_mnemonic, if_neg hne]
  have hvl := valid_lengths_of_count hcount
  have hinv : Val.invalid_words wl (pySplit (pyLower (pyStrip input))) 0 ≠ [] := by
    intro h
    obtain ⟨w, hwmem, hwnc⟩ := hbad
    exact hwnc ((invalid_words_eq_nil (pySplit (pyLower (pyStrip input))) 0).mp h w hwmem)
  have hcore := validate_core_invalid_words hne hvl hinv
  refine ⟨_, _, by rw [hv, hcore], ?_⟩
  intro p w
  rw [invalid_words_mem wl (pySplit (pyLower (pyStrip input))) 0 p w]
  constructor <;> rintro ⟨j, h1, h2, h3⟩ <;> exact ⟨j, h1, by omega, h3⟩

set_option maxRecDepth 8000 in
/-- C5 witness: the theorem evaluated at a 12-word input with unknown
tokens at positions 3 and 9. -/
theorem C5_invalid_word_stage_witness :
    ∃ L inv, Val.validate_mnemonic (List.replicate 2048 [97])
      (joinWords [[97], [97], [98], [97], [97], [97], [97], [97], [99], [97], [97], [97]]) =
        some (false, Val.VOut.report
          { mnemonic := pyLower (pyStrip (joinWords
              [[97], [97], [98], [97], [97], [97], [97], [97], [99], [97], [97], [97]])),
            word_count := (pySplit (pyLower (pyStrip (joinWords
              [[97], [97], [98], [97], [97], [97], [97], [97], [99], [97], [97], [97]])))).length,
            words := pySplit (pyLower (pyStrip (joinWords
              [[97], [97], [98], [97], [97], [97], [97], [97], [99], [97], [97], [97]]))),
            wc := (true, some L),
            wiw := some (false, Val.WiwMsg.invalidWords inv),
            checksum := none, entropy_bits := none, valid := false }) ∧
      (∀ p w, (p, w) ∈ inv ↔
        ∃ j, (pySplit (pyLower (pyStrip (joinWords
            [[97], [97], [98], [97], [97], [97], [97], [97], [99], [97], [97], [97]])))).get? j =
          some w ∧ p = j + 1 ∧ ¬(List.replicate 2048 ([97] : PyStr)).contains w) :=
  C5_invalid_word_stage (List.replicate 2048 [97])
    (joinWords [[97], [97], [98], [97], [97], [97], [97], [97], [99], [97], [97], [97]])
    (List.length_replicate 2048 [97]) (by decide)
    ⟨[98], by decide, by decide⟩

/-- C3: when the word-count and membership stages pass, the checksum stage
runs to completion, carrying both the expected checksum recomputed from
the extracted entropy bits and the actual low `L / 32` bits of the
recombined word indices; a mismatch is a returned failing result (never
an exception), and the overall flag is the conjunction of the three
stages' outcomes. -/
theorem C3_checksum_stage (wl : List PyStr) (input : PyStr) (L : Nat) (hwl : wl.length = 2048)
    (hvl : Val.valid_lengths (pySplit (pyLower (pyStrip input))).length = some L)
    (hmem : ∀ w ∈ pySplit (pyLower (pyStrip input)), wl.contains w) :
    ∃ idxs expected actual,
      List.Forall₂ (fun w i => pyIndexOf wl w = some i) (pySplit (pyLower (pyStrip input))) idxs ∧
      actual = (idxs.foldl (fun a i => (a <<< 11) ||| i) 0) &&& ((1 <<< (L / 32)) - 1) ∧
      Val.calculate_checksum_bits
        ((idxs.foldl (fun a i => (a <<< 11) ||| i) 0) >>> (L / 32)) L = some expected ∧
      Val.validate_checksum wl (pySplit (pyLower (pyStrip input))) L =
        some (decide (actual = expected), Val.CsMsg.checksumReport expected actual) ∧
      Val.validate_mnemonic wl input = some (decide (actual = expected), Val.VOut.report
        { mnemonic := pyLower (pyStrip input),
          word_count := (pySplit (pyLower (pyStrip input))).length,
          words := pySplit (pyLower (pyStrip input)),
          wc := (true, some L),
          wiw := some (true, Val.WiwMsg.allPresent),
          checksum := some (decide (actual = expected), Val.CsMsg.checksumReport expected actual),
          entropy_bits := some L,
          valid := true && (true && decide (actual = expected)) }) := by
  have hne : wl ≠ [] := by
    intro h
    rw [h] at hwl
    cases hwl
  have hv : Val.validate_mnemonic wl input = Val.validate_core wl (pyLower (pyStrip input)) := by
    rw [Val.validate_mnemonic, if_neg hne]
  obtain ⟨idxs, expected, hok, hfa, hcsb, hvc, hcore⟩ := validate_core_all_present hwl hvl hmem
  exact ⟨idxs, expected, _, hfa, rfl, hcsb, hvc, by rw [hv, hcore]; rfl⟩

set_option maxRecDepth 8000 in
/-- C3 witness: the theorem evaluated at a 12-word all-present input whose
checksum mismatches (expected 3, actual 0): the mismatch is an ordinary
failing result. -/
theorem C3_checksum_stage_witness :
    ∃ idxs expected actual,
      List.Forall₂ (fun w i => pyIndexOf (List.replicate 2048 [97]) w = some i)
        (pySplit (pyLower (pyStrip (joinWords (List.replicate 12 [97]))))) idxs ∧
      actual = (idxs.foldl (fun a i => (a <<< 11) ||| i) 0) &&& ((1 <<< (128 / 32)) - 1) ∧
      Val.calculate_checksum_bits
        ((idxs.foldl (fun a i => (a <<< 11) ||| i) 0) >>> (128 / 32)) 128 = some expected ∧
      Val.validate_checksum (List.replicate 2048 [97])
        (pySplit (pyLower (pyStrip (joinWords (List.replicate 12 [97]))))) 128 =
          some (decide (actual = expected), Val.CsMsg.checksumReport expected actual) ∧
      Val.validate_mnemonic (List.replicate 2048 [97]) (joinWords (List.replicate 12 [97])) =
        some (decide (actual = expected), Val.VOut.report
          { mnemonic := pyLower (pyStrip (joinWords (List.replicate 12 [97]))),
            word_count := (pySplit (pyLower (pyStrip (joinWords (List.replicate 12 [97]))))).length,
            words := pySplit (pyLower (pyStrip (joinWords (List.replicate 12 [97])))),
            wc := (true, some 128),
            wiw := some (true, Val.WiwMsg.allPresent),
            checksum := some (decide (actual = expected), Val.CsMsg.checksumReport expected actual),
            entropy_bits := some 128,
            valid := true && (true && decide (actual = expected)) }) :=
  C3_checksum_stage (List.replicate 2048 [97]) (joinWords (List.replicate 12 [97])) 128
    (List.length_replicate 2048 [97]) (by decide)
    (by decide)

/-! ## Normalisation idempotence (C10) -/

/-- Lowercasing is idempotent on a code point. -/
lemma pyToLower_idem (c : Nat) : pyToLower (pyToLower c) = pyToLower c := by
  simp only [pyToLower]
  split_ifs <;> omega

/-- Lowercasing preserves whitespace-ness. -/
lemma isPySpaceB_pyToLower (c : Nat) : isPySpaceB (pyToLower c) = isPySpaceB c := by
  rw [pyToLower]
  split_ifs with h
  · have h1 : isPySpaceB (c + 32) = false := by
      simp [isPySpaceB]
      omega
    have h2 : isPySpaceB c = false := by
      simp [isPySpaceB]
      omega
    rw [h1, h2]
  · rfl

/-- Dropping twice drops nothing more. -/
lemma dropWhile_dropWhile {α : Type} (p : α → Bool) (l : List α) :
    (l.dropWhile p).dropWhile p = l.dropWhile p := by
  induction l with
  | nil => rfl
  | cons c t ih =>
    rw [List.dropWhile_cons]
    split
    · exact ih
    · rename_i h
      rw [List.dropWhile_cons_of_neg h]

/-- A list whose head does not satisfy `p` is fixed by `dropWhile p`. -/
lemma dropWhile_eq_self_of_head {α : Type} {p : α → Bool} {l : List α}
    (h : ∀ c, l.head? = some c → p c = false) : l.dropWhile p = l := by
  cases l with
  | nil => rfl
  | cons c t => exact List.dropWhile_cons_of_neg (by simp [h c rfl])

/-- Stripping is idempotent. -/
lemma pyStrip_idem (s : PyStr) : pyStrip (pyStrip s) = pyStrip s := by
  rw [pyStrip, pyStrip]
  set A := s.dropWhile isPySpaceB with hA
  set B := A.reverse.dropWhile isPySpaceB with hB
  have hBA : B.reverse <+: A := by
    rw [← List.reverse_reverse A]
    rw [List.reverse_prefix]
    exact List.dropWhile_suffix isPySpaceB
  have hdropA : A.dropWhile isPySpaceB = A := by
    rw [hA]
    exact dropWhile_dropWhile _ _
  have hdropRB : B.reverse.dropWhile isPySpaceB = B.reverse := by
    apply dropWhile_eq_self_of_head
    intro c hc
    obtain ⟨t, ht⟩ := hBA
    cases hrb : B.reverse with
    | nil => rw [hrb] at hc; cases hc
    | cons x xs =>
      rw [hrb] at hc
      rw [List.head?_cons] at hc
      cases hc
      rw [hrb] at ht
      have hAhead : A = c :: (xs ++ t) := by
        rw [← ht]
        rfl
      have hfix := hdropA
      rw [hAhead, List.dropWhile_cons] at hfix
      by_cases hp : isPySpaceB c = true
      · rw [if_pos hp] at hfix
        have hlen := congrArg List.length hfix
        rw [List.length_cons] at hlen
        have hle : ((xs ++ t).dropWhile isPySpaceB).length ≤ (xs ++ t).length :=
          (List.dropWhile_sublist isPySpaceB).length_le
        omega
      · simpa using hp
  have hBB : B.dropWhile isPySpaceB = B := by
    rw [hB]
    exact dropWhile_dropWhile _ _
  rw [hdropRB, List.reverse_reverse, hBB]

/-- Lowercasing is idempotent on strings. -/
lemma pyLower_idem (s : PyStr) : pyLower (pyLower s) = pyLower s := by
  rw [pyLower, pyLower, List.map_map]
  exact List.map_congr_left (fun c _ => pyToLower_idem c)

/-- Stripping commutes with lowercasing. -/
lemma pyStrip_pyLower (s : PyStr) : pyStrip (pyLower s) = pyLower (pyStrip s) := by
  have hfun : (isPySpaceB ∘ pyToLower) = isPySpaceB := funext isPySpaceB_pyToLower
  have hdm : ∀ l : PyStr, (l.map pyToLower).dropWhile isPySpaceB =
      (l.dropWhile isPySpaceB).map pyToLower := by
    intro l
    rw [List.dropWhile_map, hfun]
  rw [pyStrip, pyStrip, pyLower, pyLower, hdm, ← List.map_reverse, hdm, ← List.map_reverse]

/-- The normalisation performed by `validate_mnemonic` is idempotent. -/
lemma py_normalize_idem (s : PyStr) :
    pyLower (pyStrip (pyLower (pyStrip s))) = pyLower (pyStrip s) := by
  rw [pyStrip_pyLower, pyStrip_idem, pyLower_idem]

/-- C10: validation is insensitive to leading and trailing whitespace and
to letter case: the full result (verdict and all per-stage detail) on any
input equals the result on its stripped, lowercased form. -/
theorem C10_normalization (wl : List PyStr) (s : PyStr) :
    Val.validate_mnemonic wl s = Val.validate_mnemonic wl (pyLower (pyStrip s)) := by
  by_cases h : wl = []
  · rw [Val.validate_mnemonic, Val.validate_mnemonic, if_pos h, if_pos h]
  · rw [Val.validate_mnemonic, Val.validate_mnemonic, if_neg h, if_neg h, py_normalize_idem]

/-! ## Joining and re-splitting mnemonics (C1) -/

/-- A word as found in the canonical dictionary: nonempty, free of
whitespace, and already lowercase. -/
def GoodWord (w : PyStr) : Prop :=
  w ≠ [] ∧ ∀ c ∈ w, isPySpaceB c = false ∧ pyToLower c = c

/-- Unfolding `splitWS` on a cons, given the split of the tail. -/
lemma splitWS_cons_eq (c : Nat) (rest : PyStr) (w : PyStr) (ws : List PyStr)
    (h : splitWS rest = w :: ws) :
    splitWS (c :: rest) = if isPySpaceB c then [] :: w :: ws else (c :: w) :: ws := by
  rw [splitWS, h]

/-- The function `splitWS` never returns the empty list of segments. -/
lemma splitWS_ne_nil (s : PyStr) : splitWS s ≠ [] := by
  induction s with
  | nil => simp [splitWS]
  | cons c rest ih =>
    cases h : splitWS rest with
    | nil => exact absurd h ih
    | cons w ws =>
      rw [splitWS_cons_eq c rest w ws h]
      split <;> simp

/-- Prepending a whitespace-free word extends the first segment. -/
lemma splitWS_append_word : ∀ (w s : PyStr), (∀ c ∈ w, isPySpaceB c = false) →
    ∃ h t, splitWS s = h :: t ∧ splitWS (w ++ s) = (w ++ h) :: t := by
  intro w
  induction w with
  | nil =>
    intro s _
    cases hs : splitWS s with
    | nil => exact absurd hs (splitWS_ne_nil s)
    | cons h t => exact ⟨h, t, rfl, by simpa using hs⟩
  | cons c w' ih =>
    intro s hw
    obtain ⟨h, t, hs, hws⟩ := ih s (fun x hx => hw x (by simp [hx]))
    refine ⟨h, t, hs, ?_⟩
    rw [List.cons_append, splitWS_cons_eq c (w' ++ s) (w' ++ h) t hws,
      if_neg (by simp [hw c (by simp)])]
    rfl

/-- A leading space starts an empty segment. -/
lemma splitWS_space (s : PyStr) : splitWS (32 :: s) = [] :: splitWS s := by
  cases hs : splitWS s with
  | nil => exact absurd hs (splitWS_ne_nil s)
  | cons w ws =>
    rw [splitWS_cons_eq 32 s w ws hs, if_pos (show isPySpaceB 32 = true from rfl)]

/-- Splitting the space-joined good words recovers them. -/
lemma pySplit_joinWords : ∀ (ws : List PyStr), (∀ w ∈ ws, GoodWord w) →
    pySplit (joinWords ws) = ws := by
  intro ws
  induction ws with
  | nil => intro _; rfl
  | cons w rest ih =>
    intro h
    have hw : GoodWord w := h w (by simp)
    have hwfilter : (!w.isEmpty) = true := by
      cases hwe : w with
      | nil => exact absurd hwe hw.1
      | cons a b => rfl
    cases rest with
    | nil =>
      obtain ⟨h0, t0, hs0, hsw⟩ := splitWS_append_word w [] (fun c hc => (hw.2 c hc).1)
      rw [show splitWS ([] : PyStr) = [[]] from rfl] at hs0
      injection hs0 with h1 h2
      rw [List.append_nil] at hsw
      rw [show joinWords [w] = w from rfl, pySplit, hsw, ← h1, ← h2, List.append_nil]
      rw [List.filter_cons, if_pos hwfilter]
      rfl
    | cons w2 rest2 =>
      have hj : joinWords (w :: w2 :: rest2) = w ++ 32 :: joinWords (w2 :: rest2) := rfl
      obtain ⟨h0, t0, hs0, hsw⟩ :=
        splitWS_append_word w (32 :: joinWords (w2 :: rest2)) (fun c hc => (hw.2 c hc).1)
      rw [splitWS_space] at hs0
      injection hs0 with h1 h2
      rw [hj, pySplit, hsw, ← h1, ← h2, List.append_nil]
      rw [List.filter_cons, if_pos hwfilter]
      have hrec := ih (fun x hx => h x (by simp [hx]))
      rw [pySplit] at hrec
      rw [hrec]

/-- Every character of a join is a space or a character of some word. -/
lemma mem_joinWords : ∀ {ws : List PyStr} {c : Nat}, c ∈ joinWords ws →
    c = 32 ∨ ∃ w ∈ ws, c ∈ w := by
  intro ws
  induction ws with
  | nil => intro c hc; cases hc
  | cons w rest ih =>
    intro c hc
    cases rest with
    | nil => exact Or.inr ⟨w, by simp, hc⟩
    | cons w2 rest2 =>
      rw [show joinWords (w :: w2 :: rest2) = w ++ 32 :: joinWords (w2 :: rest2) from rfl] at hc
      rcases List.mem_append.mp hc with hc | hc
      · exact Or.inr ⟨w, by simp, hc⟩
      · rcases List.mem_cons.mp hc with rfl | hc
        · exact Or.inl rfl
        · rcases ih hc with h32 | ⟨w', hw', hcw'⟩
          · exact Or.inl h32
          · exact Or.inr ⟨w', by simp [hw'], hcw'⟩

/-- Lowercasing fixes a join of good words. -/
lemma pyLower_joinWords {ws : List PyStr} (h : ∀ w ∈ ws, GoodWord w) :
    pyLower (joinWords ws) = joinWords ws := by
  rw [pyLower]
  have : ∀ c ∈ joinWords ws, pyToLower c = c := by
    intro c hc
    rcases mem_joinWords hc with rfl | ⟨w, hw, hcw⟩
    · rw [pyToLower, if_neg (by omega)]
    · exact ((h w hw).2 c hcw).2
  calc (joinWords ws).map pyToLower = (joinWords ws).map id := List.map_congr_left this
    _ = joinWords ws := List.map_id _

/-- The reverse of a join of good words starts with a non-space character
(when the word list is nonempty). -/
lemma rev_joinWords_head : ∀ (ws : List PyStr), ws ≠ [] → (∀ w ∈ ws, GoodWord w) →
    ∃ c t, (joinWords ws).reverse = c :: t ∧ isPySpaceB c = false := by
  intro ws
  induction ws with
  | nil => intro h _; exact absurd rfl h
  | cons w rest ih =>
    intro _ h
    cases rest with
    | nil =>
      have hw : GoodWord w := h w (by simp)
      cases hrev : w.reverse with
      | nil => exact absurd (by simpa using hrev) hw.1
      | cons c t =>
        have hc : c ∈ w := by
          have : c ∈ w.reverse := by rw [hrev]; simp
          simpa using this
        exact ⟨c, t, hrev, (hw.2 c hc).1⟩
    | cons w2 rest2 =>
      obtain ⟨c, t, hct, hcs⟩ := ih (by simp) (fun x hx => h x (by simp [hx]))
      refine ⟨c, t ++ 32 :: w.reverse, ?_, hcs⟩
      rw [show joinWords (w :: w2 :: rest2) = w ++ 32 :: joinWords (w2 :: rest2) from rfl]
      rw [List.reverse_append, List.reverse_cons, hct]
      simp

/-- Stripping fixes a join of good words. -/
lemma pyStrip_joinWords {ws : List PyStr} (h : ∀ w ∈ ws, GoodWord w) :
    pyStrip (joinWords ws) = joinWords ws := by
  cases hws : ws with
  | nil => rfl
  | cons w rest =>
    rw [← hws, pyStrip]
    have hdrop1 : (joinWords ws).dropWhile isPySpaceB = joinWords ws := by
      apply dropWhile_eq_self_of_head
      intro c hc
      have hw : GoodWord w := h w (by rw [hws]; simp)
      obtain ⟨c0, w', hw0⟩ : ∃ c0 w', w = c0 :: w' := by
        cases hwc : w with
        | nil => exact absurd hwc hw.1
        | cons a b => exact ⟨a, b, rfl⟩
      have hjw : ∃ t, joinWords ws = c0 :: t := by
        rw [hws]
        cases rest with
        | nil => exact ⟨w', by rw [hw0]; rfl⟩
        | cons w2 rest2 =>
          exact ⟨w' ++ 32 :: joinWords (w2 :: rest2), by
            rw [show joinWords (w :: w2 :: rest2) = w ++ 32 :: joinWords (w2 :: rest2) from rfl,
              hw0]
            rfl⟩
      obtain ⟨t, hjw⟩ := hjw
      rw [hjw] at hc
      rw [List.head?_cons] at hc
      cases hc
      exact (hw.2 c (by rw [hw0]; simp)).1
    rw [hdrop1]
    have hdrop2 : (joinWords ws).reverse.dropWhile isPySpaceB = (joinWords ws).reverse := by
      apply dropWhile_eq_self_of_head
      intro c hc
      obtain ⟨c', t, hct, hcs⟩ := rev_joinWords_head ws (by rw [hws]; simp) h
      rw [hct, List.head?_cons] at hc
      cases hc
      exact hcs
    rw [hdrop2, List.reverse_reverse]

/-- A function graph relates each word to at most one index. -/
lemma forall₂_some_unique {f : PyStr → Option Nat} :
    ∀ {ws : List PyStr} {a b : List Nat},
    List.Forall₂ (fun w i => f w = some i) ws a →
    List.Forall₂ (fun w i => f w = some i) ws b → a = b := by
  intro ws
  induction ws with
  | nil =>
    intro a b ha hb
    cases ha
    cases hb
    rfl
  | cons w rest ih =>
    intro a b ha hb
    cases ha with
    | cons ha1 ha2 =>
      cases hb with
      | cons hb1 hb2 =>
        rw [ha1] at hb1
        rw [ih ha2 hb2, Option.some.inj hb1]

/-- A member of the right list of a `Forall₂` has a related partner. -/
lemma forall₂_mem_right {α β : Type} {R : α → β → Prop} :
    ∀ {as : List α} {bs : List β}, List.Forall₂ R as bs → ∀ b ∈ bs, ∃ a ∈ as, R a b := by
  intro as bs h
  induction h with
  | nil => intro b hb; cases hb
  | cons h1 _ ih =>
    intro b hb
    rcases List.mem_cons.mp hb with rfl | hb
    · exact ⟨_, by simp, h1⟩
    · obtain ⟨a, ha, har⟩ := ih b hb
      exact ⟨a, by simp [ha], har⟩

/-- Membership test `List.contains` agrees with membership for code-point strings. -/
lemma contains_of_mem {wl : List PyStr} {w : PyStr} (h : w ∈ wl) : wl.contains w := by
  simpa [List.contains] using h

/-- The generator's 128-bit checksum function agrees with the validator's
general one at length 128. -/
lemma calculate_checksum_128 (e : Nat) :
    Gen.calculate_checksum e = Val.calculate_checksum_bits e 128 := by
  rw [Gen.calculate_checksum, Val.calculate_checksum_bits]
  rw [show (128 : Nat) / 8 = 16 from rfl]
  cases hpb : pyToBytes e 16 with
  | none => rfl
  | some eb =>
    obtain ⟨b, rest, hd, hb, _, _⟩ := sha256_shape eb
    have hget : (sha256 eb).get? 0 = some b := by rw [hd]; rfl
    rw [Option.some_bind, Option.some_bind, hget, Option.map_some',
      csLoop_head hd hb (128 / 32) (by norm_num)]
    rw [Nat.shiftRight_eq_div_pow]

/-- The spec's general encoder instantiated at 128 bits is exactly the
source encoder `bits_to_mnemonic`. -/
lemma encode_eq_bits_to_mnemonic (wl : List PyStr) (e : Nat) (hne : wl ≠ []) :
    Spec.encode wl e 128 = Gen.bits_to_mnemonic wl e := by
  rw [Spec.encode, Gen.bits_to_mnemonic, if_neg hne, ← calculate_checksum_128]
  cases hcs : Gen.calculate_checksum e with
  | none => rfl
  | some cs =>
    have hmap : (List.range ((128 + 128 / 32) / 11)).map
        (fun i => (((e <<< (128 / 32)) ||| cs) >>> (11 * ((128 + 128 / 32) / 11 - 1 - i))) &&& 2047) =
        Gen.word_indices ((e <<< 4) ||| cs) := by
      rw [Gen.word_indices, show (128 + 128 / 32) / 11 = 12 from rfl,
        show (128 : Nat) / 32 = 4 from rfl]
      apply List.map_congr_left
      intro i hi
      have : i < 12 := List.mem_range.mp hi
      have harg : 11 * (12 - 1 - i) = 121 - 11 * i := by omega
      rw [harg]
    rw [Option.some_bind, Option.some_bind, hmap]

/-- The round trip: validating the space-joined mnemonic produced by the
encoder recovers the original entropy exactly and reports the checksum
valid, for any supported entropy length and any duplicate-free dictionary
of 2048 canonical (nonempty, whitespace-free, lowercase) words. -/
lemma roundtrip_encode {L e : Nat} {wl ws : List PyStr}
    (hL : L = 128 ∨ L = 160 ∨ L = 192 ∨ L = 224 ∨ L = 256)
    (he : e < 2 ^ L) (hwl : wl.length = 2048) (hnd : wl.Nodup)
    (hgood : ∀ w ∈ wl, GoodWord w)
    (henc : Spec.encode wl e L = some ws) :
    ∃ cs idxs r, Val.calculate_checksum_bits e L = some cs ∧
      Val.validate_mnemonic wl (joinWords ws) = some (true, Val.VOut.report r) ∧
      r.valid = true ∧
      r.checksum = some (true, Val.CsMsg.checksumReport cs cs) ∧
      Val.get_mnemonic_info wl (joinWords ws) =
        some (Val.VOut.report r, some ⟨e, cs, (e <<< (L / 32)) ||| cs, idxs⟩) := by
  have hne : wl ≠ [] := by
    intro h
    rw [h] at hwl
    cases hwl
  rw [Spec.encode] at henc
  cases hcs : Val.calculate_checksum_bits e L with
  | none =>
    rw [hcs] at henc
    exact Option.noConfusion henc
  | some cs =>
  rw [hcs, Option.some_bind] at henc
  have hcase : 11 * ((L + L / 32) / 11) = L + L / 32 ∧
      Val.valid_lengths ((L + L / 32) / 11) = some L ∧ L / 32 ≤ 8 := by
    rcases hL with rfl | rfl | rfl | rfl | rfl <;> exact ⟨by norm_num, by decide, by norm_num⟩
  obtain ⟨b, rest, hd, hb, hrlen, hall, hcs2⟩ := calculate_checksum_bits_eq L e hL he
  have hcseq : cs = b / 2 ^ (8 - L / 32) := Option.some.inj (hcs.symm.trans hcs2)
  have hcslt : cs < 2 ^ (L / 32) := by
    rw [hcseq, Nat.div_lt_iff_lt_mul (by positivity), ← pow_add]
    have h8 : L / 32 + (8 - L / 32) = 8 := by omega
    rw [h8, show (2 : Nat) ^ 8 = 256 from rfl]
    exact hb
  have hcomb_eq : (e <<< (L / 32)) ||| cs = e * 2 ^ (L / 32) + cs := shiftLeft_or_eq_add e hcslt
  have hcomb_lt : (e <<< (L / 32)) ||| cs < 2 ^ (11 * ((L + L / 32) / 11)) := by
    rw [hcomb_eq, hcase.1, pow_add]
    calc e * 2 ^ (L / 32) + cs < e * 2 ^ (L / 32) + 2 ^ (L / 32) := by omega
      _ = (e + 1) * 2 ^ (L / 32) := by ring
      _ ≤ 2 ^ L * 2 ^ (L / 32) := Nat.mul_le_mul_right _ he
  have hrecomb : ((List.range ((L + L / 32) / 11)).map
      (fun i => (((e <<< (L / 32)) ||| cs) >>> (11 * ((L + L / 32) / 11 - 1 - i))) &&& 2047)).foldl
        (fun a i => (a <<< 11) ||| i) 0 = (e <<< (L / 32)) ||| cs := by
    have h1 := recombine_extract ((L + L / 32) / 11) ((e <<< (L / 32)) ||| cs) 0 hcomb_lt
    simpa using h1
  have hfa_get : List.Forall₂ (fun ix w => wl.get? ix = some w)
      ((List.range ((L + L / 32) / 11)).map
        (fun i => (((e <<< (L / 32)) ||| cs) >>> (11 * ((L + L / 32) / 11 - 1 - i))) &&& 2047)) ws := by
    have h2 := sequenceOpt_forall₂ henc
    rw [List.forall₂_map_left_iff] at h2
    exact h2
  have hws_len : ws.length = (L + L / 32) / 11 := by
    have h3 := hfa_get.length_eq
    rw [List.length_map, List.length_range] at h3
    exact h3.symm
  have hws_good : ∀ w ∈ ws, GoodWord w := by
    intro w hw
    obtain ⟨ix, _, hr⟩ := forall₂_mem_right hfa_get w hw
    exact hgood w (List.get?_mem hr)
  have hmem_ws : ∀ w ∈ ws, wl.contains w := by
    intro w hw
    obtain ⟨ix, _, hr⟩ := forall₂_mem_right hfa_get w hw
    exact contains_of_mem (List.get?_mem hr)
  have hnorm : pyLower (pyStrip (joinWords ws)) = joinWords ws := by
    rw [pyStrip_joinWords hws_good, pyLower_joinWords hws_good]
  have hsplit : pySplit (joinWords ws) = ws := pySplit_joinWords ws hws_good
  have hvl : Val.valid_lengths (pySplit (joinWords ws)).length = some L := by
    rw [hsplit, hws_len]
    exact hcase.2.1
  have hmem' : ∀ w ∈ pySplit (joinWords ws), wl.contains w := by
    rw [hsplit]
    exact hmem_ws
  obtain ⟨idxs', expected', hok, hfa', hcsb, hvc, hcore⟩ := validate_core_all_present hwl hvl hmem'
  have hfa_idx : List.Forall₂ (fun w i => pyIndexOf wl w = some i) ws
      ((List.range ((L + L / 32) / 11)).map
        (fun i => (((e <<< (L / 32)) ||| cs) >>> (11 * ((L + L / 32) / 11 - 1 - i))) &&& 2047)) := by
    apply List.Forall₂.flip
    apply hfa_get.imp
    intro ix w hr
    exact pyIndexOf_get hnd hr
  rw [hsplit] at hfa'
  have hidx_eq : idxs' = (List.range ((L + L / 32) / 11)).map
      (fun i => (((e <<< (L / 32)) ||| cs) >>> (11 * ((L + L / 32) / 11 - 1 - i))) &&& 2047) :=
    forall₂_some_unique hfa' hfa_idx
  rw [hidx_eq] at hcsb hvc hcore
  rw [hrecomb] at hcsb hvc hcore
  have hent : ((e <<< (L / 32)) ||| cs) >>> (L / 32) = e := by
    rw [hcomb_eq, Nat.shiftRight_eq_div_pow, Nat.mul_comm e, Nat.mul_add_div (by positivity),
      Nat.div_eq_of_lt hcslt, Nat.add_zero]
  have hact : ((e <<< (L / 32)) ||| cs) &&& ((1 <<< (L / 32)) - 1) = cs := by
    rw [hcomb_eq, and_shiftLeft_sub_one, Nat.mul_comm e, Nat.mul_add_mod, Nat.mod_eq_of_lt hcslt]
  rw [hent] at hcsb
  have hexp : expected' = cs := Option.some.inj (hcsb.symm.trans hcs)
  rw [hexp, hact] at hvc hcore
  have hdec : decide (cs = cs) = true := by simp
  rw [hdec] at hvc hcore
  have hvm : Val.validate_mnemonic wl (joinWords ws) = some (true, Val.VOut.report
      { mnemonic := joinWords ws, word_count := (pySplit (joinWords ws)).length,
        words := pySplit (joinWords ws), wc := (true, some L),
        wiw := some (true, Val.WiwMsg.allPresent),
        checksum := some (true, Val.CsMsg.checksumReport cs cs),
        entropy_bits := some L, valid := true }) := by
    rw [Val.validate_mnemonic, if_neg hne, hnorm, hcore]
  refine ⟨cs, (List.range ((L + L / 32) / 11)).map
      (fun i => (((e <<< (L / 32)) ||| cs) >>> (11 * ((L + L / 32) / 11 - 1 - i))) &&& 2047),
    _, rfl, hvm, rfl, rfl, ?_⟩
  rw [Val.get_mnemonic_info, hvm]
  have hseq : sequenceOpt ((pySplit (joinWords ws)).map (pyIndexOf wl)) =
      some ((List.range ((L + L / 32) / 11)).map
        (fun i => (((e <<< (L / 32)) ||| cs) >>> (11 * ((L + L / 32) / 11 - 1 - i))) &&& 2047)) := by
    rw [hsplit]
    exact sequenceOpt_of_forall₂ ((List.forall₂_map_left_iff).mpr hfa_idx)
  simp only [hseq, hrecomb, hent, hact]

/-- C1: encode-then-validate round trip.  First conjunct: for every
supported entropy bit length and every in-range entropy value, validating
the mnemonic produced by the (spec-modelled, general-length) encoder
reports the checksum valid and `get_mnemonic_info` recovers exactly the
original entropy bits.  Second conjunct: the same through the source's
own 128-bit encoder `bits_to_mnemonic`. -/
theorem C1_roundtrip :
    (∀ (L e : Nat) (wl ws : List PyStr),
      (L = 128 ∨ L = 160 ∨ L = 192 ∨ L = 224 ∨ L = 256) → e < 2 ^ L →
      wl.length = 2048 → wl.Nodup → (∀ w ∈ wl, GoodWord w) →
      Spec.encode wl e L = some ws →
      ∃ cs idxs r, Val.calculate_checksum_bits e L = some cs ∧
        Val.validate_mnemonic wl (joinWords ws) = some (true, Val.VOut.report r) ∧
        r.valid = true ∧
        r.checksum = some (true, Val.CsMsg.checksumReport cs cs) ∧
        Val.get_mnemonic_info wl (joinWords ws) =
          some (Val.VOut.report r, some ⟨e, cs, (e <<< (L / 32)) ||| cs, idxs⟩)) ∧
    (∀ (e : Nat) (wl ws : List PyStr),
      e < 2 ^ 128 → wl.length = 2048 → wl.Nodup → (∀ w ∈ wl, GoodWord w) →
      Gen.bits_to_mnemonic wl e = some ws →
      ∃ cs idxs r, Gen.calculate_checksum e = some cs ∧
        Val.validate_mnemonic wl (joinWords ws) = some (true, Val.VOut.report r) ∧
        r.valid = true ∧
        r.checksum = some (true, Val.CsMsg.checksumReport cs cs) ∧
        Val.get_mnemonic_info wl (joinWords ws) =
          some (Val.VOut.report r, some ⟨e, cs, (e <<< 4) ||| cs, idxs⟩)) := by
  constructor
  · intro L e wl ws hL he hwl hnd hgood henc
    exact roundtrip_encode hL he hwl hnd hgood henc
  · intro e wl ws he hwl hnd hgood henc
    have hne : wl ≠ [] := by
      intro h
      rw [h] at hwl
      cases hwl
    have henc' : Spec.encode wl e 128 = some ws := by
      rw [encode_eq_bits_to_mnemonic wl e hne]
      exact henc
    obtain ⟨cs, idxs, r, hA, hB, hC, hD, hE⟩ :=
      roundtrip_encode (Or.inl rfl) he hwl hnd hgood henc'
    rw [show (128 : Nat) / 32 = 4 from rfl] at hE
    refine ⟨cs, idxs, r, ?_, hB, hC, hD, hE⟩
    rw [calculate_checksum_128]
    exact hA

/-- Word at index `i` of the witness dictionary: four letters from
`a` to `h` encoding the base-8 digits of `i`. -/
def natWord (i : Nat) : PyStr :=
  [97 + i / 512 % 8, 97 + i / 64 % 8, 97 + i / 8 % 8, 97 + i % 8]

/-- A concrete duplicate-free 2048-word dictionary of good words. -/
def wlW : List PyStr := (List.range 2048).map natWord

/-- The witness dictionary has 2048 entries. -/
lemma wlW_length : wlW.length = 2048 := by
  rw [wlW, List.length_map, List.length_range]

/-- The witness dictionary has no duplicates. -/
lemma wlW_nodup : wlW.Nodup := by
  rw [wlW]
  apply List.Nodup.map_on ?_ (List.nodup_range 2048)
  intro i hi j hj hij
  rw [List.mem_range] at hi hj
  simp only [natWord, List.cons.injEq, and_true] at hij
  omega

/-- Every witness-dictionary word is nonempty, whitespace-free and
lowercase. -/
lemma wlW_good : ∀ w ∈ wlW, GoodWord w := by
  intro w hw
  obtain ⟨i, _, rfl⟩ := List.mem_map.mp hw
  constructor
  · simp [natWord]
  · intro c hc
    simp only [natWord, List.mem_cons, List.not_mem_nil, or_false] at hc
    rcases hc with rfl | rfl | rfl | rfl <;>
      exact ⟨by simp [isPySpaceB]; omega, by rw [pyToLower, if_neg (by omega)]⟩

set_option maxRecDepth 40000 in
/-- C1 witness: the round trip evaluated at the all-zero 128-bit entropy
with the concrete witness dictionary (the encoded mnemonic is eleven
times word 0, `aaaa`, then word 3, `aaad`). -/
theorem C1_roundtrip_witness :
    ∃ cs idxs r, Val.calculate_checksum_bits 0 128 = some cs ∧
      Val.validate_mnemonic wlW
        (joinWords (List.replicate 11 [97, 97, 97, 97] ++ [[97, 97, 97, 100]])) =
        some (true, Val.VOut.report r) ∧
      r.valid = true ∧
      r.checksum = some (true, Val.CsMsg.checksumReport cs cs) ∧
      Val.get_mnemonic_info wlW
        (joinWords (List.replicate 11 [97, 97, 97, 97] ++ [[97, 97, 97, 100]])) =
        some (Val.VOut.report r, some ⟨0, cs, (0 <<< (128 / 32)) ||| cs, idxs⟩) :=
  C1_roundtrip.1 128 0 wlW (List.replicate 11 [97, 97, 97, 97] ++ [[97, 97, 97, 100]])
    (Or.inl rfl) (Nat.two_pow_pos 128) wlW_length wlW_nodup wlW_good (by decide)
